import Mathlib

set_option linter.unusedSectionVars false

/-!
Verification of the reusable graph/union-find core of the `advent-2023`
repository against its specification.

Part 1 embeds `DisjointSet` from `src/collect.rs` as pure state-passing
functions.  Rust panics (absent `HashMap` key, `Option::expect`,
`checked_add` overflow) are modelled by `Option`, with `none` standing for a
panic.  The recursive `find_idx` is embedded with an explicit fuel argument;
on every state satisfying the data-structure invariant the fuel
`parents.length + 1` is proved sufficient, so the embedding agrees with the
unbounded Rust recursion on all reachable states.

Part 2 models the shortest-path search engine.  The repository's
`src/pathfinding.rs` is declared in `src/lib.rs` but its body is not part of
the source tree, so `shortest_path` and `bfs_all` are modelled from the
specification text (see the doc comments marked "Modelled from the spec").
-/

namespace Advent2023

/-- Embedding of `DisjointSet<E>` (src/collect.rs).  `nodes` is the element
roster, `parents` the parent/size forest: entry `i` is `(parent index,
stored size)`, where the size is `some _` exactly at roots (`NonZeroUsize`
values become plain `Nat`).  The `reverse` hash map of the Rust struct is
recomputed from `nodes` by `reverseLookup` below. -/
structure DisjointSet (E : Type) where
  nodes : List E
  parents : List (Nat × Option Nat)
deriving DecidableEq

/-- `usize::MAX` on the 64-bit targets the repository builds for. -/
def USIZE_MAX : Nat := 2 ^ 64 - 1

variable {E : Type} [DecidableEq E]

/-- `DisjointSet::create`: every element starts as its own root with size 1
(`parents: (0..nodes.len()).map(|n| (n, NonZeroUsize::new(1))).collect()`). -/
def create (elements : List E) : DisjointSet E :=
  { nodes := elements
    parents := (List.range elements.length).map (fun i => (i, some 1)) }

/-- Lookup in the `reverse` map: the index assigned at construction, i.e. the
first position of `e` in `nodes`.  `none` models the panic of `self.reverse[e]`
on an absent key. -/
def reverseLookup : List E → E → Option Nat
  | [], _ => none
  | x :: xs, e => if x = e then some 0 else (reverseLookup xs e).map (· + 1)

/-- The parent pointer of index `i`; indices outside the forest are treated as
self-parented (they are never dereferenced on reachable states). -/
def par (s : DisjointSet E) (i : Nat) : Nat :=
  ((s.parents[i]?).getD (i, none)).1

/-- The stored size slot of index `i`. -/
def sizeAt (s : DisjointSet E) (i : Nat) : Option Nat :=
  ((s.parents[i]?).getD (i, none)).2

/-- The root reached by following parent pointers from `i`, as the
`n`-fold iterate of the parent function (on states satisfying the invariant,
`n` iterations always suffice to reach the fixpoint). -/
def rootN (f : Nat → Nat) (n i : Nat) : Nat := f^[n] i

/-- Semantic root of index `i`. -/
def rootOf (s : DisjointSet E) (i : Nat) : Nat :=
  rootN (par s) s.parents.length i

/-- `DisjointSet::find_idx`, with fuel making the recursion structural:
follow the parent pointer to the root, then repoint the visited entry at the
root with an empty size slot (path compression).  `none` models either fuel
exhaustion (unreachable under the invariant), an out-of-range index, or the
`expect("Root size is known")` panic. -/
def findIdx : Nat → DisjointSet E → Nat → Option ((Nat × Nat) × DisjointSet E)
  | 0, _, _ => none
  | fuel + 1, s, idx =>
    match s.parents[idx]? with
    | none => none
    | some (p, szo) =>
      if p = idx then
        match szo with
        | some sz => some ((idx, sz), s)
        | none => none
      else
        match findIdx fuel s p with
        | none => none
        | some (root, s1) =>
          some (root, { s1 with parents := s1.parents.set idx (root.1, none) })

/-- `DisjointSet::find`. -/
def find (s : DisjointSet E) (e : E) : Option (E × DisjointSet E) :=
  match reverseLookup s.nodes e with
  | none => none
  | some i =>
    match findIdx (s.parents.length + 1) s i with
    | none => none
    | some ((r, _), s1) =>
      match s1.nodes[r]? with
      | none => none
      | some x => some (x, s1)

/-- `DisjointSet::set_size`. -/
def set_size (s : DisjointSet E) (e : E) : Option (Nat × DisjointSet E) :=
  match reverseLookup s.nodes e with
  | none => none
  | some i =>
    match findIdx (s.parents.length + 1) s i with
    | none => none
    | some ((_, szv), s1) => some (szv, s1)

/-- `DisjointSet::union_idx`: find both roots; if the `(root, size)` pairs are
equal the sets already coincide; otherwise swap so `big` is the pair not of
strictly smaller size, attach `small` under `big` and store the checked sum at
the surviving root.  `none` models the `expect("Too big")` overflow panic. -/
def union_idx (s : DisjointSet E) (a b : Nat) : Option (Bool × DisjointSet E) :=
  match findIdx (s.parents.length + 1) s a with
  | none => none
  | some (ra, s1) =>
    match findIdx (s1.parents.length + 1) s1 b with
    | none => none
    | some (rb, s2) =>
      if ra = rb then some (false, s2)
      else
        let big := if ra.2 < rb.2 then rb else ra
        let small := if ra.2 < rb.2 then ra else rb
        if big.2 + small.2 > USIZE_MAX then none
        else
          let ps := (s2.parents.set small.1 (big.1, none)).set big.1
            (big.1, some (big.2 + small.2))
          some (true, { s2 with parents := ps })

/-- `DisjointSet::union`. -/
def union (s : DisjointSet E) (a b : E) : Option (Bool × DisjointSet E) :=
  match reverseLookup s.nodes a with
  | none => none
  | some ia =>
    match reverseLookup s.nodes b with
    | none => none
    | some ib => union_idx s ia ib

/-- The indices kept by `roots`: `parents.iter().enumerate()` filtered to the
self-parented entries. -/
def rootsIdx (s : DisjointSet E) : List Nat :=
  (List.range s.parents.length).filter (fun i => par s i = i)

/-- `DisjointSet::roots`: one element per self-parented entry. -/
def roots (s : DisjointSet E) : List E :=
  (rootsIdx s).filterMap (fun i => s.nodes[i]?)

/-- States reachable from `create` on a duplicate-free roster by successful
`find` / `set_size` / `union` calls (`roots` does not mutate). -/
inductive Reachable : DisjointSet E → Prop
  | mk_create (elems : List E) (h : elems.Nodup) : Reachable (create elems)
  | mk_find (s t : DisjointSet E) (e : E) (x : E) :
      Reachable s → find s e = some (x, t) → Reachable t
  | mk_size (s t : DisjointSet E) (e : E) (v : Nat) :
      Reachable s → set_size s e = some (v, t) → Reachable t
  | mk_union (s t : DisjointSet E) (a b : E) (r : Bool) :
      Reachable s → union s a b = some (r, t) → Reachable t

/-- The parent chain from `i` eventually reaches a self-parented index. -/
def Grounded (f : Nat → Nat) (i : Nat) : Prop :=
  ∃ k, f (f^[k] i) = f^[k] i

/-- The indices of the set whose root is `r`. -/
def fiber (s : DisjointSet E) (r : Nat) : Finset Nat :=
  (Finset.range s.parents.length).filter (fun i => rootOf s i = r)

/-- Data-structure invariant of `DisjointSet`, established at `create` and
preserved by every operation: roster and forest have equal length, the roster
is duplicate-free, parent pointers stay in range, every chain reaches a root,
the size slot is populated exactly at roots, and the size stored at a root is
the cardinality of its set. -/
structure Inv (s : DisjointSet E) : Prop where
  len_nodes : s.nodes.length = s.parents.length
  nodup : s.nodes.Nodup
  par_lt : ∀ i, i < s.parents.length → par s i < s.parents.length
  grounded : ∀ i, Grounded (par s) i
  flag : ∀ i, i < s.parents.length → ((sizeAt s i).isSome ↔ par s i = i)
  size_eq : ∀ r, r < s.parents.length → par s r = r →
    sizeAt s r = some (fiber s r).card

/-! ### Parent-chain toolbox -/

/-- Relation between a state and a compressed version of it: same roster,
same roots (with the same stored sizes) and the same semantic partition. -/
structure Same (s t : DisjointSet E) : Prop where
  nodes_eq : t.nodes = s.nodes
  len_eq : t.parents.length = s.parents.length
  root_iff : ∀ j, par t j = j ↔ par s j = j
  sizeAt_root : ∀ j, par s j = j → sizeAt t j = sizeAt s j
  rootOf_eq : ∀ j, rootOf t j = rootOf s j

/-- The root that survives a `union_idx` merge (ties keep the first root). -/
def winner (va vb ra rb : Nat) : Nat := if va < vb then rb else ra

/-- The root that is attached under the winner. -/
def loser (va vb ra rb : Nat) : Nat := if va < vb then ra else rb

/-- State after a successful `union`, for chaining concrete scenarios. -/
def unionSt (s : DisjointSet Nat) (a b : Nat) : DisjointSet Nat :=
  ((union s a b).map Prod.snd).getD s

/-- State after a `set_size` call (the call may path-compress). -/
def sizeSt (s : DisjointSet Nat) (a : Nat) : DisjointSet Nat :=
  ((set_size s a).map Prod.snd).getD s

/-- The roster `{1..8}` of the repository's `disjoint` unit test. -/
def ds8 : DisjointSet Nat := create [1, 2, 3, 4, 5, 6, 7, 8]

/-- A two-element forest whose stored sizes sum past `usize::MAX`,
exercising the checked size addition of `union_idx`. -/
def dsOvf : DisjointSet Nat :=
  { nodes := [0, 1]
    parents := [(0, some (2 ^ 63)), (1, some (2 ^ 63))] }

/-- Semantic equality of two states: identical partition (through `find`),
identical set sizes and identical root lists. -/
def SemEq (s t : DisjointSet E) : Prop :=
  (∀ i, rootOf t i = rootOf s i) ∧
  (∀ x, (find t x).map Prod.fst = (find s x).map Prod.fst) ∧
  (∀ x, (set_size t x).map Prod.fst = (set_size s x).map Prod.fst) ∧
  roots t = roots s ∧
  (∀ x y, ((find t x).map Prod.fst = (find t y).map Prod.fst ↔
           (find s x).map Prod.fst = (find s y).map Prod.fst))

/-- Modelled from the spec: an `Edge` bundles a source node, a destination
node and a non-negative weight (nodes are interned as small integer indices,
as the spec's design notes recommend; `Nat` weights are non-negative). -/
structure Edge where
  source : Nat
  dest : Nat
  weight : Nat
deriving DecidableEq

/-- Modelled from the spec: the `Graph` capability — a finite node universe
`0..n-1` together with a neighbor function producing the outbound edges of a
node. -/
structure Graph where
  n : Nat
  neighbors : Nat → List Edge

/-- Well-formedness of a caller-supplied graph: every edge produced for a
node leaves that node and stays inside the universe. -/
def WF (g : Graph) : Prop :=
  ∀ v, v < g.n → ∀ e ∈ g.neighbors v, e.source = v ∧ e.dest < g.n

/-- Total cost of a path: the sum of its edge weights (spec: "its total cost
is the sum of constituent edge weights"). -/
def pathCost (p : List Edge) : Nat := (p.map Edge.weight).sum

/-- Modelled from the spec: a `Path` is an ordered sequence of edges from a
start node to a goal node, in traversal order. -/
def IsPath (g : Graph) : Nat → List Edge → Nat → Prop
  | a, [], b => a = b
  | a, e :: es, b => e ∈ g.neighbors a ∧ IsPath g e.dest es b

instance (g : Graph) (a : Nat) (p : List Edge) (b : Nat) :
    Decidable (IsPath g a p b) := by
  induction p generalizing a with
  | nil => exact (inferInstance : Decidable (a = b))
  | cons e es ih => exact @instDecidableAnd _ _ _ (ih e.dest)

/-- The first component of a frontier entry `(cost, node, path)`. -/
def eCost (x : Nat × Nat × List Edge) : Nat := x.1

/-- The node of a frontier entry. -/
def eNode (x : Nat × Nat × List Edge) : Nat := x.2.1

/-- The path of a frontier entry. -/
def ePath (x : Nat × Nat × List Edge) : List Edge := x.2.2

/-- Stable minimum extraction from the priority frontier: the first entry of
minimal accumulated cost (the spec's insertion-order tie-breaking). -/
def selectMin : (Nat × Nat × List Edge) → List (Nat × Nat × List Edge) →
    Nat × Nat × List Edge
  | best, [] => best
  | best, x :: xs => if x.1 < best.1 then selectMin x xs else selectMin best xs

/-- Modelled from the spec: one Dijkstra round — restrict the frontier to
entries at unfinalized nodes, pop a minimum-cost entry, return its path if it
satisfies the goal, otherwise finalize its node and relax its outbound
edges.  `visited` holds `(node, finalized cost)` pairs; fuel makes the
recursion structural and is proved sufficient. -/
def dijkstraLoop (g : Graph) (goalP : Nat → Bool) :
    Nat → List (Nat × Nat) → List (Nat × Nat × List Edge) → Option (List Edge)
  | 0, _, _ => none
  | fuel + 1, visited, frontier =>
    match frontier.filter (fun x => visited.all (fun vd => vd.1 != x.2.1)) with
    | [] => none
    | c :: cs =>
      let m := selectMin c cs
      if goalP m.2.1 then some m.2.2
      else
        dijkstraLoop g goalP fuel ((m.2.1, m.1) :: visited)
          (frontier ++ (g.neighbors m.2.1).map
            (fun e => (m.1 + e.weight, e.dest, m.2.2 ++ [e])))

/-- Modelled from the spec: `shortest_path(start, goal_predicate)` — classic
Dijkstra over non-negative weights from a frontier seeded with the zero-cost
empty path at `start`; `none` when no reachable node satisfies the goal. -/
def shortest_path (g : Graph) (start : Nat) (goalP : Nat → Bool) :
    Option (List Edge) :=
  dijkstraLoop g goalP (g.n + 1) [] [(0, start, [])]

/-- Modelled from the spec: the expansion step of `bfs_all` — walk the
outbound edges of the dequeued node and record a path for every destination
not yet in the mapping, appending it to both the mapping and the queue. -/
def bfsStep (p : List Edge) :
    List Edge → List (Nat × List Edge) → List (Nat × List Edge) →
    List (Nat × List Edge) × List (Nat × List Edge)
  | [], mp, queue => (mp, queue)
  | e :: es, mp, queue =>
    if e.dest ∈ mp.map Prod.fst then bfsStep p es mp queue
    else bfsStep (p := p) es (mp ++ [(e.dest, p ++ [e])]) (queue ++ [(e.dest, p ++ [e])])

instance (v : Nat) (l : List Nat) : Decidable (v ∈ l) := List.instDecidableMemOfLawfulBEq v l

/-- Modelled from the spec: the breadth-first worklist loop of `bfs_all`. -/
def bfsLoop (g : Graph) :
    Nat → List (Nat × List Edge) → List (Nat × List Edge) →
    Option (List (Nat × List Edge))
  | 0, _, _ => none
  | fuel + 1, mp, queue =>
    match queue with
    | [] => some mp
    | (v, p) :: rest =>
      let st := bfsStep p (g.neighbors v) mp rest
      bfsLoop g fuel st.1 st.2

/-- Modelled from the spec: `bfs_all(start)` — explores the full reachable
set from `start`, returning for every reachable node the path found to it. -/
def bfs_all (g : Graph) (start : Nat) : Option (List (Nat × List Edge)) :=
  bfsLoop g (g.n + 1) [(start, [])] [(start, [])]

/-! ### Properties of paths -/

/-- Invariant of the Dijkstra loop: frontier entries carry real paths with
their exact cost; finalized nodes are in range, distinct, non-goal, carry
their true shortest distance, and have all outbound edges relaxed into the
frontier; the initial zero-cost entry never leaves the frontier. -/
structure DState (g : Graph) (start : Nat) (goalP : Nat → Bool)
    (visited : List (Nat × Nat))
    (frontier : List (Nat × Nat × List Edge)) : Prop where
  fr_path : ∀ x ∈ frontier, IsPath g start x.2.2 x.2.1
  fr_cost : ∀ x ∈ frontier, pathCost x.2.2 = x.1
  fr_lt : ∀ x ∈ frontier, x.2.1 < g.n
  vis_lt : ∀ vd ∈ visited, vd.1 < g.n
  vis_nodup : (visited.map Prod.fst).Nodup
  vis_nogoal : ∀ vd ∈ visited, goalP vd.1 = false
  vis_min : ∀ vd ∈ visited, ∀ q, IsPath g start q vd.1 → vd.2 ≤ pathCost q
  vis_relaxed : ∀ vd ∈ visited, ∀ e ∈ g.neighbors vd.1,
    ∃ x ∈ frontier, x.2.1 = e.dest ∧ x.1 ≤ vd.2 + e.weight
  start_mem : ((0 : Nat), start, ([] : List Edge)) ∈ frontier

/-- A small concrete well-formed graph: 0 → 1 → 2 → 3 with a heavier direct
edge 0 → 2. -/
def gEx : Graph :=
  { n := 4
    neighbors := fun v =>
      if v = 0 then [⟨0, 1, 1⟩, ⟨0, 2, 5⟩]
      else if v = 1 then [⟨1, 2, 1⟩]
      else if v = 2 then [⟨2, 3, 1⟩]
      else [] }

/-- Invariant of the BFS worklist loop. -/
structure BState (g : Graph) (start : Nat)
    (mp queue : List (Nat × List Edge)) : Prop where
  keys_nodup : (mp.map Prod.fst).Nodup
  keys_lt : ∀ kv ∈ mp, kv.1 < g.n
  keys_path : ∀ kv ∈ mp, IsPath g start kv.2 kv.1
  queue_sub : ∀ kv ∈ queue, kv.1 ∈ mp.map Prod.fst
  queue_lt : ∀ kv ∈ queue, kv.1 < g.n
  queue_path : ∀ kv ∈ queue, IsPath g start kv.2 kv.1
  closed : ∀ kv ∈ mp, kv.1 ∈ queue.map Prod.fst ∨
    ∀ e ∈ g.neighbors kv.1, e.dest ∈ mp.map Prod.fst
  start_key : start ∈ mp.map Prod.fst

lemma grounded_of_next {f : Nat → Nat} {i : Nat} (h : Grounded f (f i)) : Grounded f i := by
  obtain ⟨k, hk⟩ := h
  exact ⟨k + 1, by simpa [Function.iterate_succ_apply] using hk⟩

lemma iterate_stable {f : Nat → Nat} {k i : Nat} (h : f (f^[k] i) = f^[k] i) :
    ∀ m, k ≤ m → f^[m] i = f^[k] i := by
  intro m hm
  obtain ⟨j, rfl⟩ := Nat.exists_eq_add_of_le hm
  have h1 : f^[k + j] i = f^[j] (f^[k] i) := by
    rw [Nat.add_comm, Function.iterate_add_apply]
  rw [h1, Function.iterate_fixed h j]

/-- Induction along a terminating parent chain. -/
lemma chain_ind {f : Nat → Nat} (P : Nat → Prop)
    (hfix : ∀ j, f j = j → P j) (hstep : ∀ j, f j ≠ j → P (f j) → P j) :
    ∀ k i, f (f^[k] i) = f^[k] i → P i := by
  intro k
  induction k with
  | zero => intro i h; exact hfix i (by simpa using h)
  | succ k ih =>
    intro i h
    by_cases hf : f i = i
    · exact hfix i hf
    · refine hstep i hf (ih (f i) ?_)
      rw [← Function.iterate_succ_apply]
      exact h

/-- Two equal points on a chain strictly before the minimal fixpoint index are
contradictory: the chain would reach its fixpoint earlier. -/
lemma chain_reaches_aux {f : Nat → Nat} {n : Nat} {i : Nat} (hg : Grounded f i)
    (hle : n < Nat.find hg) {a b : Nat} (hb : b < n + 1) (hlt : a < b)
    (hab : f^[a] i = f^[b] i) : False := by
  have hble : b ≤ Nat.find hg := le_of_lt (lt_of_le_of_lt (Nat.lt_succ_iff.mp hb) hle)
  have hjb : (Nat.find hg - b) + b = Nat.find hg := Nat.sub_add_cancel hble
  have hshift : f^[(Nat.find hg - b) + a] i = f^[(Nat.find hg - b) + b] i := by
    rw [Function.iterate_add_apply, Function.iterate_add_apply, hab]
  have hfixa : f (f^[(Nat.find hg - b) + a] i) = f^[(Nat.find hg - b) + a] i := by
    rw [hshift, hjb]
    exact Nat.find_spec hg
  have hlt2 : (Nat.find hg - b) + a < Nat.find hg := by
    calc (Nat.find hg - b) + a < (Nat.find hg - b) + b := by omega
    _ = Nat.find hg := hjb
  exact Nat.find_min hg hlt2 hfixa

/-- A terminating chain over a parent function whose non-fixpoints live below
`n` reaches its fixpoint within `n` steps (pigeonhole). -/
lemma chain_reaches {f : Nat → Nat} {n : Nat}
    (hf : ∀ j, f j ≠ j → j < n ∧ f j < n) {i : Nat} (hg : Grounded f i) :
    f (f^[n] i) = f^[n] i := by
  classical
  have hk0 : f (f^[Nat.find hg] i) = f^[Nat.find hg] i := Nat.find_spec hg
  by_cases hle : Nat.find hg ≤ n
  · rw [iterate_stable hk0 n hle]
    exact hk0
  · exfalso
    push_neg at hle
    have hmem : ∀ m ∈ Finset.range (n + 1), f^[m] i ∈ Finset.range n := by
      intro m hm
      rw [Finset.mem_range] at hm ⊢
      have hmlt : m < Nat.find hg := lt_of_le_of_lt (Nat.lt_succ_iff.mp hm) hle
      have hnf : f (f^[m] i) ≠ f^[m] i := Nat.find_min hg hmlt
      exact (hf _ hnf).1
    have hcard : (Finset.range n).card < (Finset.range (n + 1)).card := by
      simp
    obtain ⟨a, ha, b, hb, hne, hab⟩ :=
      Finset.exists_ne_map_eq_of_card_lt_of_maps_to hcard hmem
    rw [Finset.mem_range] at ha hb
    rcases hne.lt_or_lt with hlt | hlt
    · exact chain_reaches_aux hg hle hb hlt hab
    · exact chain_reaches_aux hg hle ha hlt hab.symm

lemma rootN_eq_self {f : Nat → Nat} {n i : Nat} (h : f i = i) : rootN f n i = i :=
  Function.iterate_fixed h n

lemma rootN_fix {f : Nat → Nat} {n : Nat}
    (hf : ∀ j, f j ≠ j → j < n ∧ f j < n) {i : Nat} (hg : Grounded f i) :
    f (rootN f n i) = rootN f n i :=
  chain_reaches hf hg

lemma rootN_apply {f : Nat → Nat} {n : Nat}
    (hf : ∀ j, f j ≠ j → j < n ∧ f j < n) {i : Nat} (hg : Grounded f i) :
    rootN f n (f i) = rootN f n i := by
  show f^[n] (f i) = f^[n] i
  rw [← Function.iterate_succ_apply, Function.iterate_succ_apply']
  exact chain_reaches hf hg

/-! ### Pointwise facts about `par` and `sizeAt` -/

lemma par_update (s : DisjointSet E) (ps : List (Nat × Option Nat)) (i : Nat) :
    par { s with parents := ps } i = ((ps[i]?).getD (i, none)).1 := rfl

lemma sizeAt_update (s : DisjointSet E) (ps : List (Nat × Option Nat)) (i : Nat) :
    sizeAt { s with parents := ps } i = ((ps[i]?).getD (i, none)).2 := rfl

lemma par_set (s : DisjointSet E) (idx : Nat) (v : Nat × Option Nat) (j : Nat)
    (h : idx < s.parents.length) :
    par { s with parents := s.parents.set idx v } j =
      if idx = j then v.1 else par s j := by
  by_cases hj : idx = j
  · subst hj
    rw [par_update, List.getElem?_set_self]
    · simp
    · exact h
  · rw [par_update, List.getElem?_set_ne hj]
    simp [par, hj]

lemma sizeAt_set (s : DisjointSet E) (idx : Nat) (v : Nat × Option Nat) (j : Nat)
    (h : idx < s.parents.length) :
    sizeAt { s with parents := s.parents.set idx v } j =
      if idx = j then v.2 else sizeAt s j := by
  by_cases hj : idx = j
  · subst hj
    rw [sizeAt_update, List.getElem?_set_self]
    · simp
    · exact h
  · rw [sizeAt_update, List.getElem?_set_ne hj]
    simp [sizeAt, hj]

lemma par_oob (s : DisjointSet E) (i : Nat) (h : s.parents.length ≤ i) : par s i = i := by
  unfold par
  rw [List.getElem?_eq_none h]
  rfl

lemma inv_hf {s : DisjointSet E} (hInv : Inv s) :
    ∀ j, par s j ≠ j → j < s.parents.length ∧ par s j < s.parents.length := by
  intro j hj
  by_cases h : j < s.parents.length
  · exact ⟨h, hInv.par_lt j h⟩
  · exact absurd (par_oob s j (le_of_not_lt h)) hj

/-! ### `rootOf` under the invariant -/

lemma rootOf_eq_self {s : DisjointSet E} {i : Nat} (h : par s i = i) : rootOf s i = i :=
  rootN_eq_self h

lemma rootOf_fix {s : DisjointSet E} (hInv : Inv s) (i : Nat) :
    par s (rootOf s i) = rootOf s i :=
  rootN_fix (inv_hf hInv) (hInv.grounded i)

lemma rootOf_apply {s : DisjointSet E} (hInv : Inv s) (i : Nat) :
    rootOf s (par s i) = rootOf s i :=
  rootN_apply (inv_hf hInv) (hInv.grounded i)

lemma rootOf_rootOf {s : DisjointSet E} (hInv : Inv s) (i : Nat) :
    rootOf s (rootOf s i) = rootOf s i :=
  rootOf_eq_self (rootOf_fix hInv i)

lemma iterate_par_lt {s : DisjointSet E} (hInv : Inv s) {i : Nat}
    (h : i < s.parents.length) : ∀ m, (par s)^[m] i < s.parents.length := by
  intro m
  induction m with
  | zero => simpa using h
  | succ m ih =>
    rw [Function.iterate_succ_apply']
    exact hInv.par_lt _ ih

lemma rootOf_lt {s : DisjointSet E} (hInv : Inv s) {i : Nat}
    (h : i < s.parents.length) : rootOf s i < s.parents.length :=
  iterate_par_lt hInv h s.parents.length

lemma rootOf_eq_self_iff {s : DisjointSet E} (hInv : Inv s) (i : Nat) :
    rootOf s i = i ↔ par s i = i := by
  constructor
  · intro h
    have := rootOf_fix hInv i
    rwa [h] at this
  · exact rootOf_eq_self

/-! ### The invariant at `create` -/

lemma parents_create (l : List E) :
    (create (E := E) l).parents.length = l.length := by
  simp [create]

lemma par_create (l : List E) (i : Nat) : par (create l) i = i := by
  unfold create par
  by_cases h : i < l.length
  · simp [List.getElem?_map, List.getElem?_range, h]
  · rw [List.getElem?_eq_none]
    · rfl
    · simpa using le_of_not_lt h

lemma sizeAt_create (l : List E) (i : Nat) (h : i < l.length) :
    sizeAt (create l) i = some 1 := by
  unfold create sizeAt
  simp [List.getElem?_map, List.getElem?_range, h]

lemma rootOf_create (l : List E) (i : Nat) : rootOf (create l) i = i :=
  rootOf_eq_self (par_create l i)

lemma create_inv (l : List E) (h : l.Nodup) : Inv (create l) := by
  refine ⟨by simp [create], by simpa [create] using h, ?_, ?_, ?_, ?_⟩
  · intro i hi
    rw [par_create]
    exact hi
  · intro i
    exact ⟨0, by simp [par_create]⟩
  · intro i hi
    rw [par_create, sizeAt_create l i (by simpa [parents_create] using hi)]
    simp
  · intro r hr hroot
    rw [parents_create] at hr
    rw [sizeAt_create l r hr]
    congr 1
    have : fiber (create l) r = {r} := by
      unfold fiber
      rw [Finset.filter_congr (fun i _ => by rw [rootOf_create])]
      rw [Finset.filter_eq']
      simp [parents_create, hr]
    rw [this]
    simp

/-! ### State correspondence under path compression -/

lemma Same.refl (s : DisjointSet E) : Same s s :=
  ⟨rfl, rfl, fun _ => Iff.rfl, fun _ _ => rfl, fun _ => rfl⟩

lemma Same.trans {s t u : DisjointSet E} (h1 : Same s t) (h2 : Same t u) : Same s u := by
  refine ⟨h2.nodes_eq.trans h1.nodes_eq, h2.len_eq.trans h1.len_eq,
    fun j => (h2.root_iff j).trans (h1.root_iff j), fun j hj => ?_,
    fun j => (h2.rootOf_eq j).trans (h1.rootOf_eq j)⟩
  rw [h2.sizeAt_root j ((h1.root_iff j).mpr hj), h1.sizeAt_root j hj]

lemma Same.fiber_eq {s t : DisjointSet E} (h : Same s t) (r : Nat) :
    fiber t r = fiber s r := by
  unfold fiber
  rw [h.len_eq]
  exact Finset.filter_congr fun i _ => by rw [h.rootOf_eq i]

/-- Effect of one path-compression write `parents[idx] = (root, None)`:
the invariant is preserved and the semantic content is unchanged. -/
lemma compress_one {s : DisjointSet E} (hInv : Inv s) {idx : Nat}
    (hidx : idx < s.parents.length) (hnr : par s idx ≠ idx) :
    Inv { s with parents := s.parents.set idx (rootOf s idx, none) } ∧
    Same s { s with parents := s.parents.set idx (rootOf s idx, none) } := by
  set r := rootOf s idx with hrdef
  set t : DisjointSet E := { s with parents := s.parents.set idx (r, none) } with htdef
  have hrfix : par s r = r := rootOf_fix hInv idx
  have hrne : r ≠ idx := by
    intro h
    apply hnr
    rw [← h]
    exact hrfix
  have hrlt : r < s.parents.length := rootOf_lt hInv hidx
  have hpar : ∀ j, par t j = if idx = j then r else par s j := fun j =>
    par_set s idx (r, none) j hidx
  have hsize : ∀ j, sizeAt t j = if idx = j then none else sizeAt s j := fun j =>
    sizeAt_set s idx (r, none) j hidx
  have hlen : t.parents.length = s.parents.length := by
    simp [htdef]
  have hnodes : t.nodes = s.nodes := rfl
  have hparidx : par t idx = r := by rw [hpar]; simp
  have hparr : par t r = r := by
    rw [hpar, if_neg (fun h => hrne h.symm)]
    exact hrfix
  have hf_t : ∀ j, par t j ≠ j → j < t.parents.length ∧ par t j < t.parents.length := by
    intro j hj
    rw [hlen]
    by_cases hji : idx = j
    · subst hji
      rw [hparidx]
      exact ⟨hidx, hrlt⟩
    · rw [hpar, if_neg hji] at hj ⊢
      exact inv_hf hInv j hj
  have hg_t : ∀ j, Grounded (par t) j := by
    intro j
    obtain ⟨k, hk⟩ := hInv.grounded j
    refine chain_ind (f := par s) (fun j => Grounded (par t) j) ?_ ?_ k j hk
    · intro j hjfix
      refine ⟨0, ?_⟩
      have : idx ≠ j := fun h => hnr (h ▸ hjfix)
      simpa [hpar, this] using hjfix
    · intro j hjnf ih
      by_cases hji : idx = j
      · subst hji
        exact ⟨1, by simpa [hparidx] using hparr⟩
      · apply grounded_of_next
        rw [hpar, if_neg hji]
        exact ih
  have hroot_iff : ∀ j, (par t j = j ↔ par s j = j) := by
    intro j
    by_cases hji : idx = j
    · subst hji
      rw [hparidx]
      constructor
      · intro h; exact absurd h.symm (fun hh => hrne hh.symm)
      · intro h; exact absurd h hnr
    · rw [hpar, if_neg hji]
  have hrootOf : ∀ j, rootOf t j = rootOf s j := by
    intro j
    obtain ⟨k, hk⟩ := hInv.grounded j
    refine chain_ind (f := par s) (fun j => rootOf t j = rootOf s j) ?_ ?_ k j hk
    · intro j hjfix
      rw [rootOf_eq_self hjfix, rootOf_eq_self ((hroot_iff j).mpr hjfix)]
    · intro j hjnf ih
      have happly : rootOf t (par t j) = rootOf t j := rootN_apply hf_t (hg_t j)
      by_cases hji : idx = j
      · subst hji
        rw [← happly, hparidx, rootOf_eq_self hparr, hrdef]
      · rw [← happly, hpar, if_neg hji, ih, rootOf_apply hInv]
  have hsame : Same s t := ⟨hnodes, hlen, hroot_iff, fun j hj => by
    have : idx ≠ j := fun h => hnr (h ▸ hj)
    rw [hsize, if_neg this], hrootOf⟩
  refine ⟨⟨?_, ?_, ?_, hg_t, ?_, ?_⟩, hsame⟩
  · rw [hnodes, hlen]
    exact hInv.len_nodes
  · rw [hnodes]
    exact hInv.nodup
  · intro j hj
    by_cases hjf : par t j = j
    · rw [hjf]
      exact hj
    · exact (hf_t j hjf).2
  · intro j hj
    rw [hlen] at hj
    by_cases hji : idx = j
    · subst hji
      rw [hsize, if_pos rfl, hparidx]
      simp [hrne]
    · rw [hsize, if_neg hji, hpar, if_neg hji]
      exact hInv.flag j hj
  · intro rr hrr hrrfix
    rw [hlen] at hrr
    have hsr : par s rr = rr := (hroot_iff rr).mp hrrfix
    have : idx ≠ rr := fun h => hnr (h ▸ hsr)
    rw [hsize, if_neg this, hsame.fiber_eq, hInv.size_eq rr hrr hsr]

lemma parents_getElem (s : DisjointSet E) {i : Nat} (h : i < s.parents.length) :
    s.parents[i]? = some (par s i, sizeAt s i) := by
  unfold par sizeAt
  rw [List.getElem?_eq_getElem h]
  simp

/-- Full specification of `find_idx` on invariant states: with fuel exceeding
the chain length it returns the semantic root together with its stored size,
and the compressed state is semantically unchanged. -/
lemma findIdx_go {s : DisjointSet E} (hInv : Inv s) :
    ∀ k i fuel, i < s.parents.length →
      par s ((par s)^[k] i) = (par s)^[k] i → k < fuel →
      ∃ v t, sizeAt s (rootOf s i) = some v ∧
        findIdx fuel s i = some ((rootOf s i, v), t) ∧ Inv t ∧ Same s t := by
  intro k
  induction k with
  | zero =>
    intro i fuel hi hk hfuel
    obtain ⟨m, rfl⟩ := Nat.exists_eq_add_of_lt hfuel
    have hroot : par s i = i := by simpa using hk
    obtain ⟨v, hv⟩ := Option.isSome_iff_exists.mp ((hInv.flag i hi).mpr hroot)
    refine ⟨v, s, ?_, ?_, hInv, Same.refl s⟩
    · rw [rootOf_eq_self hroot, hv]
    · rw [rootOf_eq_self hroot]
      simp [findIdx, parents_getElem s hi, hroot, hv]
  | succ k ih =>
    intro i fuel hi hk hfuel
    obtain ⟨m, rfl⟩ := Nat.exists_eq_add_of_lt hfuel
    by_cases hroot : par s i = i
    · obtain ⟨v, hv⟩ := Option.isSome_iff_exists.mp ((hInv.flag i hi).mpr hroot)
      refine ⟨v, s, ?_, ?_, hInv, Same.refl s⟩
      · rw [rootOf_eq_self hroot, hv]
      · rw [rootOf_eq_self hroot]
        simp [findIdx, parents_getElem s hi, hroot, hv]
    · have hplt : par s i < s.parents.length := hInv.par_lt i hi
      have hchain : par s ((par s)^[k] (par s i)) = (par s)^[k] (par s i) := by
        rw [← Function.iterate_succ_apply]
        exact hk
      obtain ⟨v, t1, hv, heq, hInv1, hsame1⟩ :=
        ih (par s i) (k + 1 + m) hplt hchain (by omega)
      have hrp : rootOf s (par s i) = rootOf s i := rootOf_apply hInv i
      have hit1 : i < t1.parents.length := by rw [hsame1.len_eq]; exact hi
      have hnr1 : par t1 i ≠ i := fun h => hroot ((hsame1.root_iff i).mp h)
      have hr1 : rootOf t1 i = rootOf s i := hsame1.rootOf_eq i
      obtain ⟨hInv2, hsame2⟩ := compress_one hInv1 hit1 hnr1
      rw [hr1] at hInv2 hsame2
      refine ⟨v, _, by rw [← hrp]; exact hv, ?_, hInv2, hsame1.trans hsame2⟩
      simp only [findIdx, parents_getElem s hi, hroot, if_neg hroot, heq]
      rw [hrp]
      simp

lemma findIdx_spec {s : DisjointSet E} (hInv : Inv s) {i : Nat}
    (hi : i < s.parents.length) :
    ∃ v t, sizeAt s (rootOf s i) = some v ∧
      findIdx (s.parents.length + 1) s i = some ((rootOf s i, v), t) ∧
      Inv t ∧ Same s t :=
  findIdx_go hInv s.parents.length i (s.parents.length + 1) hi
    (chain_reaches (inv_hf hInv) (hInv.grounded i)) (Nat.lt_succ_self _)

/-- Effect of the two linking writes of `union_idx`
(`parents[L] = (W, None); parents[W] = (W, Some(tot))`): the loser root `L`
is attached under the winner `W`, whose stored size becomes `tot`. -/
lemma link_spec {u t : DisjointSet E} (hInv : Inv u) {W L tot : Nat}
    (ht : t = { u with parents := (u.parents.set L (W, none)).set W (W, some tot) })
    (hW : W < u.parents.length) (hL : L < u.parents.length)
    (hWfix : par u W = W) (hLfix : par u L = L) (hne : W ≠ L)
    (htot : tot = (fiber u W).card + (fiber u L).card) :
    Inv t ∧ t.nodes = u.nodes ∧ t.parents.length = u.parents.length ∧
    (∀ j, par t j = if j = L then W else par u j) ∧
    (∀ j, sizeAt t j = if j = W then some tot
        else if j = L then none else sizeAt u j) ∧
    (∀ j, rootOf t j = if rootOf u j = L then W else rootOf u j) ∧
    (∀ j, (par t j = j ↔ par u j = j ∧ j ≠ L)) := by
  set u1 : DisjointSet E := { u with parents := u.parents.set L (W, none) } with hu1
  have ht1 : t = { u1 with parents := u1.parents.set W (W, some tot) } := ht
  have hlen1 : u1.parents.length = u.parents.length := by
    simp [hu1]
  have hW1 : W < u1.parents.length := by rw [hlen1]; exact hW
  have hpar : ∀ j, par t j = if j = L then W else par u j := by
    intro j
    rw [ht1, par_set u1 W (W, some tot) j hW1, hu1, par_set u L (W, none) j hL]
    by_cases hjW : W = j
    · rw [if_pos hjW, if_neg (fun h : j = L => hne (hjW.trans h)), ← hjW, hWfix]
    · rw [if_neg hjW]
      by_cases hjL : L = j
      · rw [if_pos hjL, if_pos hjL.symm]
      · rw [if_neg hjL, if_neg (fun h => hjL h.symm)]
  have hsize : ∀ j, sizeAt t j = if j = W then some tot
      else if j = L then none else sizeAt u j := by
    intro j
    rw [ht1, sizeAt_set u1 W (W, some tot) j hW1, hu1, sizeAt_set u L (W, none) j hL]
    by_cases hjW : j = W
    · simp [hjW]
    · by_cases hjL : j = L
      · simp [hjL, hne, hne.symm]
      · have hWj : ¬W = j := fun h => hjW h.symm
        have hLj : ¬L = j := fun h => hjL h.symm
        simp [hjW, hjL, hWj, hLj]
  have hlen : t.parents.length = u.parents.length := by
    rw [ht1]
    simp [hlen1]
  have hnodes : t.nodes = u.nodes := by rw [ht1, hu1]
  have hparW : par t W = W := by
    rw [hpar, if_neg hne]
    exact hWfix
  have hparL : par t L = W := by rw [hpar, if_pos rfl]
  have hroot_iff : ∀ j, (par t j = j ↔ par u j = j ∧ j ≠ L) := by
    intro j
    by_cases hjL : j = L
    · rw [hjL, hparL]
      constructor
      · intro h; exact absurd h hne
      · intro h; exact absurd rfl h.2
    · rw [hpar, if_neg hjL]
      exact ⟨fun h => ⟨h, hjL⟩, fun h => h.1⟩
  have hf_t : ∀ j, par t j ≠ j → j < t.parents.length ∧ par t j < t.parents.length := by
    intro j hj
    rw [hlen]
    by_cases hjL : j = L
    · rw [hjL, hparL]
      exact ⟨hL, hW⟩
    · rw [hpar, if_neg hjL] at hj ⊢
      exact inv_hf hInv j hj
  have hg_t : ∀ j, Grounded (par t) j := by
    intro j
    obtain ⟨k, hk⟩ := hInv.grounded j
    refine chain_ind (f := par u) (fun j => Grounded (par t) j) ?_ ?_ k j hk
    · intro j hjfix
      by_cases hjL : j = L
      · rw [hjL]
        exact ⟨1, by simpa [hparL] using hparW⟩
      · refine ⟨0, ?_⟩
        simp only [Function.iterate_zero, id_eq]
        rw [hpar, if_neg hjL]
        exact hjfix
    · intro j hjnf ih
      have hjL : j ≠ L := fun h => hjnf (h ▸ hLfix)
      apply grounded_of_next
      rw [hpar, if_neg hjL]
      exact ih
  have hrootOf : ∀ j, rootOf t j = if rootOf u j = L then W else rootOf u j := by
    intro j
    obtain ⟨k, hk⟩ := hInv.grounded j
    refine chain_ind (f := par u)
      (fun j => rootOf t j = if rootOf u j = L then W else rootOf u j) ?_ ?_ k j hk
    · intro j hjfix
      rw [rootOf_eq_self hjfix]
      by_cases hjL : j = L
      · have h1 : rootOf t (par t j) = rootOf t j := rootN_apply hf_t (hg_t j)
        rw [if_pos hjL, ← h1, hjL, hparL, rootOf_eq_self hparW]
      · rw [if_neg hjL, rootOf_eq_self ((hroot_iff j).mpr ⟨hjfix, hjL⟩)]
    · intro j hjnf ih
      have hjL : j ≠ L := fun h => hjnf (h ▸ hLfix)
      have h1 : rootOf t (par t j) = rootOf t j := rootN_apply hf_t (hg_t j)
      rw [← h1, hpar, if_neg hjL, ih, rootOf_apply hInv]
  refine ⟨⟨?_, ?_, ?_, hg_t, ?_, ?_⟩, hnodes, hlen, hpar, hsize, hrootOf, hroot_iff⟩
  · rw [hnodes, hlen]
    exact hInv.len_nodes
  · rw [hnodes]
    exact hInv.nodup
  · intro j hj
    by_cases hjf : par t j = j
    · rw [hjf]
      exact hj
    · exact (hf_t j hjf).2
  · intro j hj
    rw [hlen] at hj
    rw [hsize]
    by_cases hjW : j = W
    · rw [if_pos hjW, hjW]
      simp [hparW]
    · rw [if_neg hjW]
      by_cases hjL : j = L
      · rw [if_pos hjL, hjL, hparL]
        simp [hne]
      · rw [if_neg hjL, hpar, if_neg hjL]
        exact hInv.flag j hj
  · intro rr hrr hrrfix
    rw [hlen] at hrr
    obtain ⟨hufix, hrrL⟩ := (hroot_iff rr).mp hrrfix
    have hfib : ∀ r2, r2 ≠ L → r2 ≠ W → fiber t r2 = fiber u r2 := by
      intro r2 h2L h2W
      unfold fiber
      rw [hlen]
      refine Finset.filter_congr fun i _ => ?_
      rw [hrootOf]
      by_cases hL2 : rootOf u i = L
      · rw [if_pos hL2, hL2]
        constructor
        · intro h; exact absurd h.symm h2W
        · intro h; exact absurd h.symm h2L
      · rw [if_neg hL2]
    by_cases hrrW : rr = W
    · rw [hsize, if_pos hrrW, hrrW]
      have hfibW : fiber t W = fiber u W ∪ fiber u L := by
        ext i
        unfold fiber
        rw [hlen]
        simp only [Finset.mem_union, Finset.mem_filter, Finset.mem_range]
        constructor
        · rintro ⟨hi, hri⟩
          rw [hrootOf] at hri
          by_cases hL2 : rootOf u i = L
          · exact Or.inr ⟨hi, hL2⟩
          · rw [if_neg hL2] at hri
            exact Or.inl ⟨hi, hri⟩
        · rintro (⟨hi, hri⟩ | ⟨hi, hri⟩)
          · refine ⟨hi, ?_⟩
            rw [hrootOf, hri]
            simp [hne]
          · refine ⟨hi, ?_⟩
            rw [hrootOf, hri]
            simp
      have hdisj : Disjoint (fiber u W) (fiber u L) := by
        rw [Finset.disjoint_left]
        intro a haW haL
        unfold fiber at haW haL
        rw [Finset.mem_filter] at haW haL
        exact hne (haW.2.symm.trans haL.2)
      rw [hfibW, Finset.card_union_of_disjoint hdisj, htot]
    · rw [hsize, if_neg hrrW, if_neg hrrL, hfib rr hrrL hrrW]
      exact hInv.size_eq rr hrr hufix

/-- Behaviour of `union_idx` on invariant states, stated relative to the
incoming state: equal roots give `false` and change nothing semantically;
distinct roots abort on size overflow and otherwise link the loser root under
the winner with the summed size. -/
lemma union_idx_spec {s : DisjointSet E} (hInv : Inv s) {a b : Nat}
    (ha : a < s.parents.length) (hb : b < s.parents.length) :
    (rootOf s a = rootOf s b →
      ∃ t, union_idx s a b = some (false, t) ∧ Inv t ∧ Same s t) ∧
    (rootOf s a ≠ rootOf s b →
      ∃ va vb, sizeAt s (rootOf s a) = some va ∧ sizeAt s (rootOf s b) = some vb ∧
      (va + vb > USIZE_MAX → union_idx s a b = none) ∧
      (va + vb ≤ USIZE_MAX →
        ∃ t, union_idx s a b = some (true, t) ∧ Inv t ∧
          t.nodes = s.nodes ∧ t.parents.length = s.parents.length ∧
          par t (loser va vb (rootOf s a) (rootOf s b)) =
            winner va vb (rootOf s a) (rootOf s b) ∧
          sizeAt t (winner va vb (rootOf s a) (rootOf s b)) = some (va + vb) ∧
          sizeAt t (loser va vb (rootOf s a) (rootOf s b)) = none ∧
          (∀ j, rootOf t j =
            if rootOf s j = loser va vb (rootOf s a) (rootOf s b)
            then winner va vb (rootOf s a) (rootOf s b) else rootOf s j) ∧
          (∀ j, (par t j = j ↔
            par s j = j ∧ j ≠ loser va vb (rootOf s a) (rootOf s b))) ∧
          (∀ j, par s j = j → j ≠ loser va vb (rootOf s a) (rootOf s b) →
            j ≠ winner va vb (rootOf s a) (rootOf s b) →
            sizeAt t j = sizeAt s j))) := by
  obtain ⟨va, t1, hva, heq1, hInv1, hsame1⟩ := findIdx_spec hInv ha
  have hb1 : b < t1.parents.length := by rw [hsame1.len_eq]; exact hb
  obtain ⟨vb, t2, hvb1, heq2, hInv2, hsame2⟩ := findIdx_spec hInv1 hb1
  have hrb1 : rootOf t1 b = rootOf s b := hsame1.rootOf_eq b
  have hfixb : par s (rootOf s b) = rootOf s b := rootOf_fix hInv b
  have hfixa : par s (rootOf s a) = rootOf s a := rootOf_fix hInv a
  have hvb : sizeAt s (rootOf s b) = some vb := by
    rw [← hsame1.sizeAt_root (rootOf s b) hfixb, ← hrb1]
    exact hvb1
  rw [hrb1] at heq2
  have hsame12 : Same s t2 := hsame1.trans hsame2
  have hla : rootOf s a < s.parents.length := rootOf_lt hInv ha
  have hlb : rootOf s b < s.parents.length := rootOf_lt hInv hb
  have hcard_a : va = (fiber s (rootOf s a)).card := by
    have := hInv.size_eq (rootOf s a) hla hfixa
    rw [hva] at this
    exact Option.some.inj this
  have hcard_b : vb = (fiber s (rootOf s b)).card := by
    have := hInv.size_eq (rootOf s b) hlb hfixb
    rw [hvb] at this
    exact Option.some.inj this
  constructor
  · intro hr
    have hpairs : ((rootOf s a : Nat), va) = ((rootOf s b : Nat), vb) := by
      have hvv : va = vb := by
        rw [hr] at hva
        rw [hva] at hvb
        exact Option.some.inj hvb
      rw [hr, hvv]
    refine ⟨t2, ?_, hInv2, hsame12⟩
    simp only [union_idx, heq1, heq2, hpairs, if_pos]
  · intro hr
    have hpairs : ¬(((rootOf s a : Nat), va) = ((rootOf s b : Nat), vb)) := by
      intro h
      exact hr (congrArg Prod.fst h)
    refine ⟨va, vb, hva, hvb, ?_, ?_⟩
    · intro hovf
      by_cases hlt : va < vb
      · have hadd : vb + va > USIZE_MAX := by omega
        simp [union_idx, heq1, heq2, hpairs, hlt, hadd]
      · simp [union_idx, heq1, heq2, hpairs, hlt, hovf]
    · intro hok
      by_cases hlt : va < vb
      · set tlink : DisjointSet E := { t2 with parents := (t2.parents.set (rootOf s a) (rootOf s b, none)).set (rootOf s b) (rootOf s b, some (vb + va)) } with htlink
        have hueq : union_idx s a b = some (true, tlink) := by
          have hadd : ¬vb + va > USIZE_MAX := by omega
          simp [union_idx, heq1, heq2, hpairs, hlt, hadd, htlink]
        have hWfix : par t2 (rootOf s b) = rootOf s b := (hsame12.root_iff _).mpr hfixb
        have hLfix : par t2 (rootOf s a) = rootOf s a := (hsame12.root_iff _).mpr hfixa
        have hW2 : rootOf s b < t2.parents.length := by rw [hsame12.len_eq]; exact hlb
        have hL2 : rootOf s a < t2.parents.length := by rw [hsame12.len_eq]; exact hla
        have hne2 : rootOf s b ≠ rootOf s a := fun h => hr h.symm
        have htot2 : vb + va =
            (fiber t2 (rootOf s b)).card + (fiber t2 (rootOf s a)).card := by
          rw [hsame12.fiber_eq, hsame12.fiber_eq, ← hcard_a, ← hcard_b]
        obtain ⟨hInv3, hnodes3, hlen3, hpar3, hsize3, hrootOf3, hroot_iff3⟩ :=
          link_spec hInv2 htlink hW2 hL2 hWfix hLfix hne2 htot2
        have hWL : winner va vb (rootOf s a) (rootOf s b) = rootOf s b := by
          unfold winner
          rw [if_pos hlt]
        have hLL : loser va vb (rootOf s a) (rootOf s b) = rootOf s a := by
          unfold loser
          rw [if_pos hlt]
        rw [hWL, hLL]
        refine ⟨tlink, hueq, hInv3, ?_, ?_, ?_, ?_, ?_, ?_, ?_, ?_⟩
        · rw [hnodes3, hsame12.nodes_eq]
        · rw [hlen3, hsame12.len_eq]
        · rw [hpar3, if_pos rfl]
        · rw [hsize3, if_pos rfl, Nat.add_comm]
        · rw [hsize3, if_neg hne2.symm, if_pos rfl]
        · intro j
          rw [hrootOf3, hsame12.rootOf_eq]
        · intro j
          rw [hroot_iff3, hsame12.root_iff]
        · intro j hj hjL hjW
          rw [hsize3, if_neg hjW, if_neg hjL, hsame12.sizeAt_root j hj]
      · set tlink : DisjointSet E := { t2 with parents := (t2.parents.set (rootOf s b) (rootOf s a, none)).set (rootOf s a) (rootOf s a, some (va + vb)) } with htlink
        have hueq : union_idx s a b = some (true, tlink) := by
          have hadd : ¬va + vb > USIZE_MAX := by omega
          simp [union_idx, heq1, heq2, hpairs, hlt, hadd, htlink]
        have hWfix : par t2 (rootOf s a) = rootOf s a := (hsame12.root_iff _).mpr hfixa
        have hLfix : par t2 (rootOf s b) = rootOf s b := (hsame12.root_iff _).mpr hfixb
        have hW2 : rootOf s a < t2.parents.length := by rw [hsame12.len_eq]; exact hla
        have hL2 : rootOf s b < t2.parents.length := by rw [hsame12.len_eq]; exact hlb
        have htot2 : va + vb =
            (fiber t2 (rootOf s a)).card + (fiber t2 (rootOf s b)).card := by
          rw [hsame12.fiber_eq, hsame12.fiber_eq, ← hcard_a, ← hcard_b]
        obtain ⟨hInv3, hnodes3, hlen3, hpar3, hsize3, hrootOf3, hroot_iff3⟩ :=
          link_spec hInv2 htlink hW2 hL2 hWfix hLfix hr htot2
        have hWL : winner va vb (rootOf s a) (rootOf s b) = rootOf s a := by
          unfold winner
          rw [if_neg hlt]
        have hLL : loser va vb (rootOf s a) (rootOf s b) = rootOf s b := by
          unfold loser
          rw [if_neg hlt]
        rw [hWL, hLL]
        refine ⟨tlink, hueq, hInv3, ?_, ?_, ?_, ?_, ?_, ?_, ?_, ?_⟩
        · rw [hnodes3, hsame12.nodes_eq]
        · rw [hlen3, hsame12.len_eq]
        · rw [hpar3, if_pos rfl]
        · rw [hsize3, if_pos rfl]
        · rw [hsize3, if_neg (fun h => hr h.symm), if_pos rfl]
        · intro j
          rw [hrootOf3, hsame12.rootOf_eq]
        · intro j
          rw [hroot_iff3, hsame12.root_iff]
        · intro j hj hjL hjW
          rw [hsize3, if_neg hjW, if_neg hjL, hsame12.sizeAt_root j hj]

/-! ### Element-level wrappers -/

lemma reverseLookup_mem : ∀ (l : List E) (e : E), e ∈ l →
    ∃ i, reverseLookup l e = some i ∧ l[i]? = some e := by
  intro l
  induction l with
  | nil => intro e he; simp at he
  | cons x xs ih =>
    intro e he
    by_cases hx : x = e
    · exact ⟨0, by simp [reverseLookup, hx], by simp [hx]⟩
    · have hmem : e ∈ xs := by
        rcases List.mem_cons.mp he with h | h
        · exact absurd h.symm hx
        · exact h
      obtain ⟨i, h1, h2⟩ := ih e hmem
      exact ⟨i + 1, by simp [reverseLookup, hx, h1], by simpa using h2⟩

lemma reverseLookup_none : ∀ (l : List E) (e : E), e ∉ l →
    reverseLookup l e = none := by
  intro l
  induction l with
  | nil => intro e _; rfl
  | cons x xs ih =>
    intro e he
    have hx : ¬x = e := fun h => he (by rw [← h]; exact List.mem_cons_self x xs)
    have hxs : e ∉ xs := fun h => he (List.mem_cons_of_mem x h)
    simp [reverseLookup, hx, ih e hxs]

lemma reverseLookup_getElem : ∀ (l : List E) (e : E) (i : Nat),
    reverseLookup l e = some i → l[i]? = some e := by
  intro l
  induction l with
  | nil => intro e i h; simp [reverseLookup] at h
  | cons x xs ih =>
    intro e i h
    by_cases hx : x = e
    · simp [reverseLookup, hx] at h
      rw [← h]
      simp [hx]
    · simp only [reverseLookup, if_neg hx] at h
      obtain ⟨j, hj, rfl⟩ := Option.map_eq_some'.mp h
      simpa using ih e j hj

lemma reverseLookup_index : ∀ (l : List E), l.Nodup → ∀ (i : Nat) (e : E),
    l[i]? = some e → reverseLookup l e = some i := by
  intro l
  induction l with
  | nil => intro _ i e h; simp at h
  | cons x xs ih =>
    intro hn i e h
    match i with
    | 0 =>
      simp at h
      simp [reverseLookup, h]
    | j + 1 =>
      simp at h
      have hmem : e ∈ xs := by
        obtain ⟨hl, rfl⟩ := List.getElem?_eq_some.mp h
        exact List.getElem_mem hl
      have hx : ¬x = e := fun hh => (List.nodup_cons.mp hn).1 (hh ▸ hmem)
      simp [reverseLookup, hx, ih (List.nodup_cons.mp hn).2 j e h]

lemma find_spec {s : DisjointSet E} (hInv : Inv s) {e : E} (he : e ∈ s.nodes) :
    ∃ i y t, reverseLookup s.nodes e = some i ∧ i < s.parents.length ∧
      s.nodes[i]? = some e ∧ find s e = some (y, t) ∧
      s.nodes[rootOf s i]? = some y ∧ Inv t ∧ Same s t := by
  obtain ⟨i, hrl, hget⟩ := reverseLookup_mem s.nodes e he
  have hilt : i < s.parents.length := by
    rw [← hInv.len_nodes]
    exact (List.getElem?_eq_some.mp hget).1
  obtain ⟨v, t, hv, heq, hInvt, hsame⟩ := findIdx_spec hInv hilt
  have hroot_lt : rootOf s i < s.nodes.length := by
    rw [hInv.len_nodes]
    exact rootOf_lt hInv hilt
  have hys : (s.nodes[rootOf s i]?).isSome := by
    rw [List.getElem?_eq_getElem hroot_lt]
    rfl
  obtain ⟨y, hy⟩ := Option.isSome_iff_exists.mp hys
  refine ⟨i, y, t, hrl, hilt, hget, ?_, hy, hInvt, hsame⟩
  simp only [find, hrl, heq, hsame.nodes_eq, hy]

lemma set_size_spec {s : DisjointSet E} (hInv : Inv s) {e : E} (he : e ∈ s.nodes) :
    ∃ i v t, reverseLookup s.nodes e = some i ∧ i < s.parents.length ∧
      s.nodes[i]? = some e ∧ sizeAt s (rootOf s i) = some v ∧
      set_size s e = some (v, t) ∧ Inv t ∧ Same s t := by
  obtain ⟨i, hrl, hget⟩ := reverseLookup_mem s.nodes e he
  have hilt : i < s.parents.length := by
    rw [← hInv.len_nodes]
    exact (List.getElem?_eq_some.mp hget).1
  obtain ⟨v, t, hv, heq, hInvt, hsame⟩ := findIdx_spec hInv hilt
  refine ⟨i, v, t, hrl, hilt, hget, hv, ?_, hInvt, hsame⟩
  simp only [set_size, hrl, heq]

/-- Every reachable state satisfies the data-structure invariant. -/
theorem reachable_inv {s : DisjointSet E} (h : Reachable s) : Inv s := by
  induction h with
  | mk_create l hn => exact create_inv l hn
  | mk_find s t e x _ heq ih =>
    by_cases he : e ∈ s.nodes
    · obtain ⟨i, y, t', _, _, _, heq', _, hInvt, _⟩ := find_spec ih he
      rw [heq] at heq'
      obtain ⟨-, rfl⟩ := Prod.mk.injEq .. |>.mp (Option.some.inj heq')
      exact hInvt
    · rw [find, reverseLookup_none s.nodes e he] at heq
      exact absurd heq (by simp)
  | mk_size s t e v _ heq ih =>
    by_cases he : e ∈ s.nodes
    · obtain ⟨i, v', t', _, _, _, _, heq', hInvt, _⟩ := set_size_spec ih he
      rw [heq] at heq'
      obtain ⟨-, rfl⟩ := Prod.mk.injEq .. |>.mp (Option.some.inj heq')
      exact hInvt
    · rw [set_size, reverseLookup_none s.nodes e he] at heq
      exact absurd heq (by simp)
  | mk_union s t a b r _ heq ih =>
    by_cases hea : a ∈ s.nodes
    · by_cases heb : b ∈ s.nodes
      · obtain ⟨ia, hrla, hgeta⟩ := reverseLookup_mem s.nodes a hea
        obtain ⟨ib, hrlb, hgetb⟩ := reverseLookup_mem s.nodes b heb
        have hia : ia < s.parents.length := by
          rw [← ih.len_nodes]
          exact (List.getElem?_eq_some.mp hgeta).1
        have hib : ib < s.parents.length := by
          rw [← ih.len_nodes]
          exact (List.getElem?_eq_some.mp hgetb).1
        simp only [union, hrla, hrlb] at heq
        obtain ⟨hsameR, hdiffR⟩ := union_idx_spec ih hia hib
        by_cases hroots : rootOf s ia = rootOf s ib
        · obtain ⟨t', heq', hInvt, _⟩ := hsameR hroots
          rw [heq] at heq'
          obtain ⟨-, rfl⟩ := Prod.mk.injEq .. |>.mp (Option.some.inj heq')
          exact hInvt
        · obtain ⟨va, vb, _, _, hovf, hok⟩ := hdiffR hroots
          by_cases hbig : va + vb > USIZE_MAX
          · rw [hovf hbig] at heq
            exact absurd heq (by simp)
          · obtain ⟨t', heq', hInvt, _⟩ := hok (le_of_not_lt hbig)
            rw [heq] at heq'
            obtain ⟨-, rfl⟩ := Prod.mk.injEq .. |>.mp (Option.some.inj heq')
            exact hInvt
      · rw [union, reverseLookup_none s.nodes b heb] at heq
        exact absurd heq (by cases reverseLookup s.nodes a <;> simp)
    · rw [union, reverseLookup_none s.nodes a hea] at heq
      exact absurd heq (by simp)

lemma set_size_root {s : DisjointSet E} (hInv : Inv s) {r : Nat}
    (hr : r < s.parents.length) (hfix : par s r = r) {y : E}
    (hy : s.nodes[r]? = some y) :
    set_size s y = some ((fiber s r).card, s) := by
  have hrl : reverseLookup s.nodes y = some r :=
    reverseLookup_index s.nodes hInv.nodup r y hy
  have hsz : sizeAt s r = some (fiber s r).card := hInv.size_eq r hr hfix
  simp [set_size, hrl, findIdx, parents_getElem s hr, hfix, hsz]

lemma findIdx_shape : ∀ (fuel : Nat) (s : DisjointSet E) (i r v : Nat)
    (t : DisjointSet E), findIdx fuel s i = some ((r, v), t) →
    r < s.parents.length ∧ t.parents.length = s.parents.length := by
  intro fuel
  induction fuel with
  | zero => intro s i r v t h; simp [findIdx] at h
  | succ fuel ih =>
    intro s i r v t h
    simp only [findIdx] at h
    cases hget : s.parents[i]? with
    | none => rw [hget] at h; simp at h
    | some pr =>
      obtain ⟨p, szo⟩ := pr
      rw [hget] at h
      simp only at h
      by_cases hp : p = i
      · rw [if_pos hp] at h
        cases szo with
        | none => simp at h
        | some sz =>
          simp only [Option.some.injEq] at h
          obtain ⟨h1, h2⟩ := Prod.mk.injEq .. |>.mp h
          have hi : i < s.parents.length := (List.getElem?_eq_some.mp hget).1
          have hir : i = r := congrArg Prod.fst h1
          exact ⟨hir ▸ hi, h2 ▸ rfl⟩
      · rw [if_neg hp] at h
        cases hrec : findIdx fuel s p with
        | none => rw [hrec] at h; simp at h
        | some pr2 =>
          obtain ⟨root, st⟩ := pr2
          obtain ⟨rt, vv⟩ := root
          rw [hrec] at h
          simp only [Option.some.injEq] at h
          obtain ⟨h1, h2⟩ := Prod.mk.injEq .. |>.mp h
          obtain ⟨hshape1, hshape2⟩ := ih s p rt vv st hrec
          constructor
          · have hrt : rt = r := congrArg Prod.fst h1
            exact hrt ▸ hshape1
          · rw [← h2]
            simpa using hshape2

lemma mem_rootsIdx {s : DisjointSet E} {i : Nat} :
    i ∈ rootsIdx s ↔ i < s.parents.length ∧ par s i = i := by
  unfold rootsIdx
  simp [List.mem_filter]

lemma rootsIdx_nodup (s : DisjointSet E) : (rootsIdx s).Nodup :=
  (List.nodup_range _).filter _

/-! ### Concrete states used by the unit-test claims -/

/-- C6: the concrete `{1..8}` scenario of the `tests::disjoint` unit test:
eight singleton roots of size 1; `union(1,8)` returns `true` and the size of
1's set becomes 2; the repeated `union(1,8)` returns `false`; after unioning
(3,4), (2,6), (6,5), (5,1) there are three sets of sizes 5, 2 and 1. -/
theorem claim_C6 :
    (roots ds8).length = 8 ∧
    ([1, 2, 3, 4, 5, 6, 7, 8].map (fun e => (set_size ds8 e).map Prod.fst))
      = List.replicate 8 (some 1) ∧
    (union ds8 1 8).map Prod.fst = some true ∧
    (set_size (unionSt ds8 1 8) 1).map Prod.fst = some 2 ∧
    (union (sizeSt (unionSt ds8 1 8) 1) 1 8).map Prod.fst = some false ∧
    (roots (unionSt (unionSt (unionSt (unionSt (unionSt (sizeSt (unionSt ds8 1 8) 1) 1 8) 3 4) 2 6) 6 5) 5 1)).length = 3 ∧
    (set_size (unionSt (unionSt (unionSt (unionSt (unionSt (sizeSt (unionSt ds8 1 8) 1) 1 8) 3 4) 2 6) 6 5) 5 1) 1).map Prod.fst = some 5 ∧
    (set_size (sizeSt (unionSt (unionSt (unionSt (unionSt (unionSt (sizeSt (unionSt ds8 1 8) 1) 1 8) 3 4) 2 6) 6 5) 5 1) 1) 4).map Prod.fst = some 2 ∧
    (set_size (sizeSt (sizeSt (unionSt (unionSt (unionSt (unionSt (unionSt (sizeSt (unionSt ds8 1 8) 1) 1 8) 3 4) 2 6) 6 5) 5 1) 1) 4) 7).map Prod.fst = some 1 := by
  decide

/-- C7: querying an element that was not part of the construction roster
panics (modelled by `none`) in `find`, `set_size`, and on either side of
`union`, rather than returning a wrong answer or a recoverable value. -/
theorem claim_C7 (s : DisjointSet E) (e : E) (he : e ∉ s.nodes) (x : E) :
    find s e = none ∧ set_size s e = none ∧
    union s e x = none ∧ union s x e = none := by
  have h := reverseLookup_none s.nodes e he
  refine ⟨?_, ?_, ?_, ?_⟩
  · simp [find, h]
  · simp [set_size, h]
  · simp [union, h]
  · cases hx : reverseLookup s.nodes x <;> simp [union, h, hx]

theorem claim_C7_witness :
    find (create [10, 20] : DisjointSet Nat) 5 = none ∧
    set_size (create [10, 20] : DisjointSet Nat) 5 = none ∧
    union (create [10, 20] : DisjointSet Nat) 5 10 = none ∧
    union (create [10, 20] : DisjointSet Nat) 10 5 = none :=
  claim_C7 (create [10, 20]) 5 (by decide) 10

/-- C8: the size accumulation of `union_idx` is checked arithmetic: on a
merge of two distinct root pairs whose sizes sum past `usize::MAX` the call
aborts (`none`, modelling the `expect("Too big")` panic), and every
non-aborting merge stores the exact mathematical sum at the surviving root. -/
theorem claim_C8 (s s1 s2 : DisjointSet E) (a b ra rb sa sb : Nat)
    (ha : findIdx (s.parents.length + 1) s a = some ((ra, sa), s1))
    (hb : findIdx (s1.parents.length + 1) s1 b = some ((rb, sb), s2))
    (hne : ((ra : Nat), sa) ≠ ((rb : Nat), sb)) :
    (sa + sb > USIZE_MAX → union_idx s a b = none) ∧
    (sa + sb ≤ USIZE_MAX → ∃ t, union_idx s a b = some (true, t) ∧
      sizeAt t (if sa < sb then rb else ra) = some (sa + sb)) := by
  obtain ⟨hra, hlen1⟩ := findIdx_shape _ s a ra sa s1 ha
  obtain ⟨hrb, hlen2⟩ := findIdx_shape _ s1 b rb sb s2 hb
  constructor
  · intro hovf
    by_cases hlt : sa < sb
    · have hadd : sb + sa > USIZE_MAX := by omega
      simp [union_idx, ha, hb, hne, hlt, hadd]
    · simp [union_idx, ha, hb, hne, hlt, hovf]
  · intro hok
    by_cases hlt : sa < sb
    · have hadd : ¬sb + sa > USIZE_MAX := by omega
      have hrb2 : rb < s2.parents.length := by omega
      set s2x : DisjointSet E := { s2 with parents := s2.parents.set ra (rb, none) } with hs2x
      have h1 : union_idx s a b =
          some (true, { s2x with parents := s2x.parents.set rb (rb, some (sb + sa)) }) := by
        simp [union_idx, ha, hb, hne, hlt, hadd, hs2x]
      refine ⟨_, h1, ?_⟩
      rw [if_pos hlt,
        sizeAt_set s2x rb (rb, some (sb + sa)) rb (by rw [hs2x]; simpa using hrb2)]
      rw [if_pos rfl, Nat.add_comm]
    · have hadd : ¬sa + sb > USIZE_MAX := by omega
      have hra2 : ra < s2.parents.length := by omega
      set s2x : DisjointSet E := { s2 with parents := s2.parents.set rb (ra, none) } with hs2x
      have h1 : union_idx s a b =
          some (true, { s2x with parents := s2x.parents.set ra (ra, some (sa + sb)) }) := by
        simp [union_idx, ha, hb, hne, hlt, hadd, hs2x]
      refine ⟨_, h1, ?_⟩
      rw [if_neg hlt,
        sizeAt_set s2x ra (ra, some (sa + sb)) ra (by rw [hs2x]; simpa using hra2)]
      rw [if_pos rfl]

theorem claim_C8_witness : union_idx dsOvf 0 1 = none :=
  (claim_C8 dsOvf dsOvf dsOvf 0 1 0 1 (2 ^ 63) (2 ^ 63) (by decide) (by decide)
    (by decide)).1 (by decide)

lemma filterMap_eq_map_of_forall {α β : Type} (l : List α) (f : α → Option β)
    (g : α → β) (h : ∀ a ∈ l, f a = some (g a)) : l.filterMap f = l.map g := by
  induction l with
  | nil => rfl
  | cons x xs ih =>
    rw [List.filterMap_cons, h x (List.mem_cons_self x xs), List.map_cons,
      ih (fun a ha => h a (List.mem_cons_of_mem x ha))]

lemma filterMap_total_length {α β : Type} (l : List α) (f : α → Option β)
    (h : ∀ a ∈ l, (f a).isSome) : (l.filterMap f).length = l.length := by
  induction l with
  | nil => rfl
  | cons x xs ih =>
    obtain ⟨y, hy⟩ := Option.isSome_iff_exists.mp (h x (List.mem_cons_self x xs))
    rw [List.filterMap_cons, hy, List.length_cons,
      ih (fun a ha => h a (List.mem_cons_of_mem x ha)), List.length_cons]

lemma same_roots {s t : DisjointSet E} (hsame : Same s t) : roots t = roots s := by
  unfold roots rootsIdx
  rw [hsame.len_eq, hsame.nodes_eq]
  congr 1
  refine List.filter_congr fun i _ => ?_
  simp [hsame.root_iff i]

lemma same_semEq {s t : DisjointSet E} (hs : Inv s) (ht : Inv t)
    (hsame : Same s t) : SemEq s t := by
  have hfind : ∀ x, (find t x).map Prod.fst = (find s x).map Prod.fst := by
    intro x
    by_cases hx : x ∈ s.nodes
    · obtain ⟨i, y, u, hrl, hlt, hget, heq, hy, _, _⟩ := find_spec hs hx
      have hx2 : x ∈ t.nodes := by rw [hsame.nodes_eq]; exact hx
      obtain ⟨i2, y2, u2, hrl2, hlt2, hget2, heq2, hy2, _, _⟩ := find_spec ht hx2
      rw [hsame.nodes_eq, hrl] at hrl2
      obtain rfl : i = i2 := Option.some.inj hrl2
      rw [hsame.nodes_eq, hsame.rootOf_eq, hy] at hy2
      obtain rfl : y = y2 := Option.some.inj hy2
      rw [heq, heq2]
      rfl
    · have h1 := reverseLookup_none s.nodes x hx
      have h2 := reverseLookup_none t.nodes x (by rw [hsame.nodes_eq]; exact hx)
      simp [find, h1, h2]
  refine ⟨hsame.rootOf_eq, hfind, ?_, same_roots hsame, fun x y => by rw [hfind x, hfind y]⟩
  intro x
  by_cases hx : x ∈ s.nodes
  · obtain ⟨i, v, u, hrl, hlt, hget, hv, heq, _, _⟩ := set_size_spec hs hx
    have hx2 : x ∈ t.nodes := by rw [hsame.nodes_eq]; exact hx
    obtain ⟨i2, v2, u2, hrl2, hlt2, hget2, hv2, heq2, _, _⟩ := set_size_spec ht hx2
    rw [hsame.nodes_eq, hrl] at hrl2
    obtain rfl : i = i2 := Option.some.inj hrl2
    rw [hsame.rootOf_eq, hsame.sizeAt_root _ (rootOf_fix hs i), hv] at hv2
    obtain rfl : v = v2 := Option.some.inj hv2
    rw [heq, heq2]
    rfl
  · have h1 := reverseLookup_none s.nodes x hx
    have h2 := reverseLookup_none t.nodes x (by rw [hsame.nodes_eq]; exact hx)
    simp [set_size, h1, h2]

/-- C9: on every reachable state an index is self-parented exactly when it is
the canonical root of its own set, the size slot is populated exactly at the
self-parented entries, and `roots` (a pure scan for self-parented entries)
lists exactly one representative per distinct set. -/
theorem claim_C9 (s : DisjointSet E) (h : Reachable s) :
    (∀ i, i < s.parents.length → (par s i = i ↔ rootOf s i = i)) ∧
    (∀ i, i < s.parents.length → ((sizeAt s i).isSome ↔ par s i = i)) ∧
    (rootsIdx s).Nodup ∧
    (∀ i, i < s.parents.length → rootOf s i ∈ rootsIdx s) ∧
    (∀ r, r ∈ rootsIdx s → rootOf s r = r) ∧
    (∀ r r2, r ∈ rootsIdx s → r2 ∈ rootsIdx s → rootOf s r = rootOf s r2 → r = r2) ∧
    (roots s).length = (rootsIdx s).length := by
  have hInv := reachable_inv h
  refine ⟨?_, hInv.flag, rootsIdx_nodup s, ?_, ?_, ?_, ?_⟩
  · intro i _
    exact (rootOf_eq_self_iff hInv i).symm
  · intro i hi
    exact mem_rootsIdx.mpr ⟨rootOf_lt hInv hi, rootOf_fix hInv i⟩
  · intro r hr
    exact rootOf_eq_self (mem_rootsIdx.mp hr).2
  · intro r r2 h1 h2 heq
    rwa [rootOf_eq_self (mem_rootsIdx.mp h1).2,
      rootOf_eq_self (mem_rootsIdx.mp h2).2] at heq
  · unfold roots
    refine filterMap_total_length _ _ fun i hi => ?_
    have hlt : i < s.nodes.length := by
      rw [hInv.len_nodes]
      exact (mem_rootsIdx.mp hi).1
    rw [List.getElem?_eq_getElem hlt]
    rfl

theorem claim_C9_witness :
    (∀ i, i < (create [10, 20] : DisjointSet Nat).parents.length →
      (par (create [10, 20]) i = i ↔ rootOf (create [10, 20]) i = i)) ∧
    (∀ i, i < (create [10, 20] : DisjointSet Nat).parents.length →
      ((sizeAt (create [10, 20]) i).isSome ↔ par (create [10, 20]) i = i)) ∧
    (rootsIdx (create [10, 20] : DisjointSet Nat)).Nodup ∧
    (∀ i, i < (create [10, 20] : DisjointSet Nat).parents.length →
      rootOf (create [10, 20]) i ∈ rootsIdx (create [10, 20] : DisjointSet Nat)) ∧
    (∀ r, r ∈ rootsIdx (create [10, 20] : DisjointSet Nat) →
      rootOf (create [10, 20]) r = r) ∧
    (∀ r r2, r ∈ rootsIdx (create [10, 20] : DisjointSet Nat) →
      r2 ∈ rootsIdx (create [10, 20] : DisjointSet Nat) →
      rootOf (create [10, 20]) r = rootOf (create [10, 20]) r2 → r = r2) ∧
    (roots (create [10, 20] : DisjointSet Nat)).length =
      (rootsIdx (create [10, 20] : DisjointSet Nat)).length :=
  claim_C9 (create [10, 20]) (Reachable.mk_create _ (by decide))

/-- C2: on every reachable state the sizes of the sets represented by
`roots()` (as reported by `set_size`) sum to the number of constructed
elements, and each of those `set_size` calls succeeds. -/
theorem claim_C2 (s : DisjointSet E) (h : Reachable s) :
    ((roots s).map (fun e => ((set_size s e).map Prod.fst).getD 0)).sum
      = s.nodes.length ∧
    (∀ e ∈ roots s, (set_size s e).isSome) := by
  have hInv := reachable_inv h
  constructor
  · unfold roots
    rw [List.map_filterMap]
    rw [filterMap_eq_map_of_forall _ _ (fun i => (fiber s i).card) ?hall]
    case hall =>
      intro i hi
      obtain ⟨hlt, hfix⟩ := mem_rootsIdx.mp hi
      have hltn : i < s.nodes.length := by
        rw [hInv.len_nodes]
        exact hlt
      have hy : s.nodes[i]? = some (s.nodes[i]) := List.getElem?_eq_getElem hltn
      rw [hy]
      have hss := set_size_root hInv hlt hfix hy
      simp [hss]
    rw [← List.sum_toFinset _ (rootsIdx_nodup s)]
    have hmaps : ∀ i ∈ Finset.range s.parents.length,
        rootOf s i ∈ (rootsIdx s).toFinset := by
      intro i hi
      rw [Finset.mem_range] at hi
      rw [List.mem_toFinset]
      exact mem_rootsIdx.mpr ⟨rootOf_lt hInv hi, rootOf_fix hInv i⟩
    have hfw := Finset.card_eq_sum_card_fiberwise hmaps
    rw [Finset.card_range] at hfw
    rw [hInv.len_nodes, hfw]
    rfl
  · intro e he
    obtain ⟨i, hi, hy⟩ := List.mem_filterMap.mp he
    obtain ⟨hlt, hfix⟩ := mem_rootsIdx.mp hi
    rw [set_size_root hInv hlt hfix hy]
    rfl

theorem claim_C2_witness :
    ((roots (create [4, 5, 6] : DisjointSet Nat)).map
        (fun e => ((set_size (create [4, 5, 6]) e).map Prod.fst).getD 0)).sum
      = (create [4, 5, 6] : DisjointSet Nat).nodes.length ∧
    (∀ e ∈ roots (create [4, 5, 6] : DisjointSet Nat),
      (set_size (create [4, 5, 6]) e).isSome) :=
  claim_C2 (create [4, 5, 6]) (Reachable.mk_create _ (by decide))

/-- Element-level behaviour of `union` on invariant states whose roster fits
in `usize` (a `Vec` length always does): equal roots give `false` with the
semantics unchanged, distinct roots merge loser-under-winner with the summed
size, and no overflow panic is possible. -/
lemma union_spec {s : DisjointSet E} (hInv : Inv s) {a b : E}
    (ha : a ∈ s.nodes) (hb : b ∈ s.nodes) (hcap : s.nodes.length ≤ USIZE_MAX) :
    ∃ ia ib, reverseLookup s.nodes a = some ia ∧ reverseLookup s.nodes b = some ib ∧
      ia < s.parents.length ∧ ib < s.parents.length ∧
      (rootOf s ia = rootOf s ib →
        ∃ t, union s a b = some (false, t) ∧ Inv t ∧ Same s t) ∧
      (rootOf s ia ≠ rootOf s ib →
        ∃ va vb t, sizeAt s (rootOf s ia) = some va ∧
          sizeAt s (rootOf s ib) = some vb ∧
          union s a b = some (true, t) ∧ Inv t ∧ t.nodes = s.nodes ∧
          t.parents.length = s.parents.length ∧
          par t (loser va vb (rootOf s ia) (rootOf s ib)) =
            winner va vb (rootOf s ia) (rootOf s ib) ∧
          sizeAt t (winner va vb (rootOf s ia) (rootOf s ib)) = some (va + vb) ∧
          (∀ j, rootOf t j =
            if rootOf s j = loser va vb (rootOf s ia) (rootOf s ib)
            then winner va vb (rootOf s ia) (rootOf s ib) else rootOf s j)) := by
  obtain ⟨ia, hrla, hgeta⟩ := reverseLookup_mem s.nodes a ha
  obtain ⟨ib, hrlb, hgetb⟩ := reverseLookup_mem s.nodes b hb
  have hia : ia < s.parents.length := by
    rw [← hInv.len_nodes]
    exact (List.getElem?_eq_some.mp hgeta).1
  have hib : ib < s.parents.length := by
    rw [← hInv.len_nodes]
    exact (List.getElem?_eq_some.mp hgetb).1
  obtain ⟨hsameR, hdiffR⟩ := union_idx_spec hInv hia hib
  refine ⟨ia, ib, hrla, hrlb, hia, hib, ?_, ?_⟩
  · intro hroots
    obtain ⟨t, heq, hInvt, hsame⟩ := hsameR hroots
    exact ⟨t, by simp only [union, hrla, hrlb]; exact heq, hInvt, hsame⟩
  · intro hroots
    obtain ⟨va, vb, hva, hvb, _, hok⟩ := hdiffR hroots
    have hva_card : va = (fiber s (rootOf s ia)).card := by
      have := hInv.size_eq (rootOf s ia) (rootOf_lt hInv hia) (rootOf_fix hInv ia)
      rw [hva] at this
      exact Option.some.inj this
    have hvb_card : vb = (fiber s (rootOf s ib)).card := by
      have := hInv.size_eq (rootOf s ib) (rootOf_lt hInv hib) (rootOf_fix hInv ib)
      rw [hvb] at this
      exact Option.some.inj this
    have hdisj : Disjoint (fiber s (rootOf s ia)) (fiber s (rootOf s ib)) := by
      rw [Finset.disjoint_left]
      intro x hxa hxb
      unfold fiber at hxa hxb
      rw [Finset.mem_filter] at hxa hxb
      exact hroots (hxa.2.symm.trans hxb.2)
    have hsub : fiber s (rootOf s ia) ∪ fiber s (rootOf s ib) ⊆
        Finset.range s.parents.length := by
      intro x hx
      rcases Finset.mem_union.mp hx with hx | hx <;>
        exact (Finset.mem_filter.mp hx).1
    have hsum_le : va + vb ≤ USIZE_MAX := by
      have h1 : va + vb ≤ s.parents.length := by
        rw [hva_card, hvb_card, ← Finset.card_union_of_disjoint hdisj]
        calc (fiber s (rootOf s ia) ∪ fiber s (rootOf s ib)).card
            ≤ (Finset.range s.parents.length).card := Finset.card_le_card hsub
        _ = s.parents.length := Finset.card_range _
      rw [← hInv.len_nodes] at h1
      omega
    obtain ⟨t, heq, hInvt, hnodes, hlen, hparL, hsizeW, hsizeL, hrootOf, _, _⟩ :=
      hok hsum_le
    exact ⟨va, vb, t, hva, hvb, by simp only [union, hrla, hrlb]; exact heq,
      hInvt, hnodes, hlen, hparL, hsizeW, hrootOf⟩

/-- C3: `union` returns `false` and changes nothing (semantically) when the
two elements already share a set, and otherwise attaches the strictly smaller
set's root under the larger set's root, stores the summed size at the
surviving root and returns `true`; in particular an immediately repeated
`union(a, b)` always returns `false`. -/
theorem claim_C3 (s : DisjointSet E) (h : Reachable s) (a b : E)
    (ha : a ∈ s.nodes) (hb : b ∈ s.nodes) (hcap : s.nodes.length ≤ USIZE_MAX) :
    ∃ ia ib, reverseLookup s.nodes a = some ia ∧ reverseLookup s.nodes b = some ib ∧
      (rootOf s ia = rootOf s ib →
        ∃ t, union s a b = some (false, t) ∧ SemEq s t) ∧
      (rootOf s ia ≠ rootOf s ib →
        ∃ va vb t, sizeAt s (rootOf s ia) = some va ∧
          sizeAt s (rootOf s ib) = some vb ∧
          union s a b = some (true, t) ∧
          sizeAt t (winner va vb (rootOf s ia) (rootOf s ib)) = some (va + vb) ∧
          (va < vb → par t (rootOf s ia) = rootOf s ib) ∧
          (vb < va → par t (rootOf s ib) = rootOf s ia)) ∧
      (∀ r t, union s a b = some (r, t) → ∃ t2, union t a b = some (false, t2)) := by
  have hInv := reachable_inv h
  obtain ⟨ia, ib, hrla, hrlb, hia, hib, hsameR, hdiffR⟩ := union_spec hInv ha hb hcap
  refine ⟨ia, ib, hrla, hrlb, ?_, ?_, ?_⟩
  · intro hroots
    obtain ⟨t, heq, hInvt, hsame⟩ := hsameR hroots
    exact ⟨t, heq, same_semEq hInv hInvt hsame⟩
  · intro hroots
    obtain ⟨va, vb, t, hva, hvb, heq, _, _, _, hparL, hsizeW, _⟩ := hdiffR hroots
    refine ⟨va, vb, t, hva, hvb, heq, hsizeW, ?_, ?_⟩
    · intro hlt
      have h1 := hparL
      unfold winner loser at h1
      rwa [if_pos hlt, if_pos hlt] at h1
    · intro hlt
      have hnlt : ¬va < vb := by omega
      have h1 := hparL
      unfold winner loser at h1
      rwa [if_neg hnlt, if_neg hnlt] at h1
  · intro r t hu
    have hInvt : Inv t := reachable_inv (Reachable.mk_union s t a b r h hu)
    by_cases hroots : rootOf s ia = rootOf s ib
    · obtain ⟨t', heq, _, hsame⟩ := hsameR hroots
      rw [hu] at heq
      obtain ⟨-, rfl⟩ := Prod.mk.injEq .. |>.mp (Option.some.inj heq)
      have hat : a ∈ t.nodes := by rw [hsame.nodes_eq]; exact ha
      have hbt : b ∈ t.nodes := by rw [hsame.nodes_eq]; exact hb
      have hcapt : t.nodes.length ≤ USIZE_MAX := by rw [hsame.nodes_eq]; exact hcap
      obtain ⟨ia2, ib2, hrla2, hrlb2, _, _, hsameR2, _⟩ := union_spec hInvt hat hbt hcapt
      rw [hsame.nodes_eq, hrla] at hrla2
      rw [hsame.nodes_eq, hrlb] at hrlb2
      obtain rfl : ia = ia2 := Option.some.inj hrla2
      obtain rfl : ib = ib2 := Option.some.inj hrlb2
      obtain ⟨t2, heq2, _, _⟩ := hsameR2 (by rw [hsame.rootOf_eq, hsame.rootOf_eq, hroots])
      exact ⟨t2, heq2⟩
    · obtain ⟨va, vb, t', hva, hvb, heq, _, hnodes, _, _, _, hrootOf⟩ := hdiffR hroots
      rw [hu] at heq
      obtain ⟨-, rfl⟩ := Prod.mk.injEq .. |>.mp (Option.some.inj heq)
      have hat : a ∈ t.nodes := by rw [hnodes]; exact ha
      have hbt : b ∈ t.nodes := by rw [hnodes]; exact hb
      have hcapt : t.nodes.length ≤ USIZE_MAX := by rw [hnodes]; exact hcap
      obtain ⟨ia2, ib2, hrla2, hrlb2, _, _, hsameR2, _⟩ := union_spec hInvt hat hbt hcapt
      rw [hnodes, hrla] at hrla2
      rw [hnodes, hrlb] at hrlb2
      obtain rfl : ia = ia2 := Option.some.inj hrla2
      obtain rfl : ib = ib2 := Option.some.inj hrlb2
      have hrw : ∀ x, x = rootOf s ia ∨ x = rootOf s ib →
          (if x = loser va vb (rootOf s ia) (rootOf s ib)
           then winner va vb (rootOf s ia) (rootOf s ib) else x)
            = winner va vb (rootOf s ia) (rootOf s ib) := by
        intro x hx
        unfold winner loser
        by_cases hlt : va < vb
        · simp only [if_pos hlt]
          rcases hx with rfl | rfl
          · simp
          · rw [if_neg (fun hh => hroots hh.symm)]
        · simp only [if_neg hlt]
          rcases hx with rfl | rfl
          · rw [if_neg hroots]
          · simp
      have hroots2 : rootOf t ia = rootOf t ib := by
        rw [hrootOf ia, hrootOf ib]
        rw [hrw (rootOf s ia) (Or.inl rfl), hrw (rootOf s ib) (Or.inr rfl)]
      obtain ⟨t2, heq2, _, _⟩ := hsameR2 hroots2
      exact ⟨t2, heq2⟩

theorem claim_C3_witness :
    ∃ ia ib, reverseLookup (create [7, 9] : DisjointSet Nat).nodes 7 = some ia ∧
      reverseLookup (create [7, 9] : DisjointSet Nat).nodes 9 = some ib ∧
      (rootOf (create [7, 9]) ia = rootOf (create [7, 9]) ib →
        ∃ t, union (create [7, 9] : DisjointSet Nat) 7 9 = some (false, t) ∧
          SemEq (create [7, 9]) t) ∧
      (rootOf (create [7, 9]) ia ≠ rootOf (create [7, 9]) ib →
        ∃ va vb t, sizeAt (create [7, 9]) (rootOf (create [7, 9]) ia) = some va ∧
          sizeAt (create [7, 9]) (rootOf (create [7, 9]) ib) = some vb ∧
          union (create [7, 9] : DisjointSet Nat) 7 9 = some (true, t) ∧
          sizeAt t (winner va vb (rootOf (create [7, 9]) ia)
            (rootOf (create [7, 9]) ib)) = some (va + vb) ∧
          (va < vb → par t (rootOf (create [7, 9]) ia) = rootOf (create [7, 9]) ib) ∧
          (vb < va → par t (rootOf (create [7, 9]) ib) = rootOf (create [7, 9]) ia)) ∧
      (∀ r t, union (create [7, 9] : DisjointSet Nat) 7 9 = some (r, t) →
        ∃ t2, union t 7 9 = some (false, t2)) :=
  claim_C3 (create [7, 9]) (Reachable.mk_create _ (by decide)) 7 9
    (by decide) (by decide) (by decide)

lemma winner_absorb {va vb rA rB : Nat} (hne : rA ≠ rB) :
    ∀ x, x = rA ∨ x = rB →
      (if x = loser va vb rA rB then winner va vb rA rB else x)
        = winner va vb rA rB := by
  intro x hx
  unfold winner loser
  by_cases hlt : va < vb
  · simp only [if_pos hlt]
    rcases hx with rfl | rfl
    · simp
    · rw [if_neg (fun hh => hne hh.symm)]
  · simp only [if_neg hlt]
    rcases hx with rfl | rfl
    · rw [if_neg hne]
    · simp

/-- C4: after any sequence of operations, `find` is stable (two consecutive
calls agree) and idempotent (`find (find x) = find x`), and a `union`
returning `true` makes the two arguments report the same representative. -/
theorem claim_C4 (s : DisjointSet E) (h : Reachable s) :
    (∀ x, x ∈ s.nodes → ∃ y t1 t2 t3,
      find s x = some (y, t1) ∧ find t1 x = some (y, t2) ∧
      find t2 y = some (y, t3)) ∧
    (∀ a b t, union s a b = some (true, t) →
      ∃ y ta tb, find t a = some (y, ta) ∧ find t b = some (y, tb)) := by
  have hInv := reachable_inv h
  constructor
  · intro x hx
    obtain ⟨i, y, t1, hrl, hlt, hget, heq1, hy, hInv1, hsame1⟩ := find_spec hInv hx
    have hx1 : x ∈ t1.nodes := by rw [hsame1.nodes_eq]; exact hx
    obtain ⟨i2, y2, t2, hrl2, hlt2, hget2, heq2, hy2, hInv2, hsame2⟩ :=
      find_spec hInv1 hx1
    rw [hsame1.nodes_eq, hrl] at hrl2
    obtain rfl : i = i2 := Option.some.inj hrl2
    rw [hsame1.nodes_eq, hsame1.rootOf_eq, hy] at hy2
    obtain rfl : y = y2 := Option.some.inj hy2
    have hsame12 : Same s t2 := hsame1.trans hsame2
    have hylt : rootOf s i < s.nodes.length := by
      rw [hInv.len_nodes]
      exact rootOf_lt hInv hlt
    have hymem : y ∈ t2.nodes := by
      rw [hsame12.nodes_eq]
      obtain ⟨hl, rfl⟩ := List.getElem?_eq_some.mp hy
      exact List.getElem_mem hl
    obtain ⟨i3, y3, t3, hrl3, hlt3, hget3, heq3, hy3, hInv3, hsame3⟩ :=
      find_spec hInv2 hymem
    have hrly : reverseLookup s.nodes y = some (rootOf s i) :=
      reverseLookup_index s.nodes hInv.nodup (rootOf s i) y hy
    rw [hsame12.nodes_eq, hrly] at hrl3
    obtain rfl : rootOf s i = i3 := Option.some.inj hrl3
    rw [hsame12.nodes_eq, hsame12.rootOf_eq, rootOf_rootOf hInv, hy] at hy3
    obtain rfl : y = y3 := Option.some.inj hy3
    exact ⟨y, t1, t2, t3, heq1, heq2, heq3⟩
  · intro a b t hu
    have hInvt : Inv t := reachable_inv (Reachable.mk_union s t a b true h hu)
    have hea : a ∈ s.nodes := by
      by_contra hna
      rw [union, reverseLookup_none s.nodes a hna] at hu
      simp at hu
    have heb : b ∈ s.nodes := by
      by_contra hnb
      rw [union, reverseLookup_none s.nodes b hnb] at hu
      cases hxa : reverseLookup s.nodes a <;> rw [hxa] at hu <;> simp at hu
    obtain ⟨ia, hrla, hgeta⟩ := reverseLookup_mem s.nodes a hea
    obtain ⟨ib, hrlb, hgetb⟩ := reverseLookup_mem s.nodes b heb
    have hia : ia < s.parents.length := by
      rw [← hInv.len_nodes]
      exact (List.getElem?_eq_some.mp hgeta).1
    have hib : ib < s.parents.length := by
      rw [← hInv.len_nodes]
      exact (List.getElem?_eq_some.mp hgetb).1
    have huidx : union_idx s ia ib = some (true, t) := by
      rw [union, hrla, hrlb] at hu
      exact hu
    obtain ⟨hsameR, hdiffR⟩ := union_idx_spec hInv hia hib
    by_cases hroots : rootOf s ia = rootOf s ib
    · obtain ⟨t', heq, _, _⟩ := hsameR hroots
      rw [huidx] at heq
      have := congrArg Prod.fst (Option.some.inj heq)
      simp at this
    · obtain ⟨va, vb, hva, hvb, hovf, hok⟩ := hdiffR hroots
      by_cases hbig : va + vb > USIZE_MAX
      · rw [hovf hbig] at huidx
        simp at huidx
      · obtain ⟨t', heq, _, hnodes, _, _, _, _, hrootOf, _, _⟩ :=
          hok (le_of_not_lt hbig)
        rw [huidx] at heq
        obtain ⟨-, rfl⟩ := Prod.mk.injEq .. |>.mp (Option.some.inj heq)
        have hat : a ∈ t.nodes := by rw [hnodes]; exact hea
        have hbt : b ∈ t.nodes := by rw [hnodes]; exact heb
        obtain ⟨i2, y2, ta, hrla2, hlt2, hget2, heqfa, hy2, _, _⟩ :=
          find_spec hInvt hat
        obtain ⟨i3, y3, tb, hrlb2, hlt3, hget3, heqfb, hy3, _, _⟩ :=
          find_spec hInvt hbt
        rw [hnodes, hrla] at hrla2
        obtain rfl : ia = i2 := Option.some.inj hrla2
        rw [hnodes, hrlb] at hrlb2
        obtain rfl : ib = i3 := Option.some.inj hrlb2
        have hrooteq : rootOf t ia = rootOf t ib := by
          rw [hrootOf ia, hrootOf ib,
            winner_absorb hroots (rootOf s ia) (Or.inl rfl),
            winner_absorb hroots (rootOf s ib) (Or.inr rfl)]
        rw [hrooteq, hy3] at hy2
        obtain rfl : y3 = y2 := Option.some.inj hy2
        exact ⟨y3, ta, tb, heqfa, heqfb⟩

theorem claim_C4_witness :
    ∃ y t1 t2 t3,
      find (create [3, 4] : DisjointSet Nat) 3 = some (y, t1) ∧
      find t1 3 = some (y, t2) ∧ find t2 y = some (y, t3) :=
  (claim_C4 (create [3, 4]) (Reachable.mk_create _ (by decide))).1 3 (by decide)

/-- C10: `find` and `set_size` only rewrite intermediate parent pointers:
after a successful call the partition reported by `find`, every `set_size`
value and the `roots()` list are unchanged. -/
theorem claim_C10 (s : DisjointSet E) (h : Reachable s) (e : E) :
    (∀ r t, find s e = some (r, t) → SemEq s t) ∧
    (∀ v t, set_size s e = some (v, t) → SemEq s t) := by
  have hInv := reachable_inv h
  constructor
  · intro r t hft
    by_cases hx : e ∈ s.nodes
    · obtain ⟨i, y, t', _, _, _, heq, _, hInvt, hsame⟩ := find_spec hInv hx
      rw [hft] at heq
      obtain ⟨-, rfl⟩ := Prod.mk.injEq .. |>.mp (Option.some.inj heq)
      exact same_semEq hInv hInvt hsame
    · rw [find, reverseLookup_none s.nodes e hx] at hft
      simp at hft
  · intro v t hft
    by_cases hx : e ∈ s.nodes
    · obtain ⟨i, v', t', _, _, _, _, heq, hInvt, hsame⟩ := set_size_spec hInv hx
      rw [hft] at heq
      obtain ⟨-, rfl⟩ := Prod.mk.injEq .. |>.mp (Option.some.inj heq)
      exact same_semEq hInv hInvt hsame
    · rw [set_size, reverseLookup_none s.nodes e hx] at hft
      simp at hft

theorem claim_C10_witness :
    SemEq (create [1, 2] : DisjointSet Nat) (create [1, 2] : DisjointSet Nat) :=
  (claim_C10 (create [1, 2]) (Reachable.mk_create _ (by decide)) 1).1 1
    (create [1, 2]) (by decide)

/-! ### Part 2: the search engine, modelled from the specification

`src/pathfinding.rs` is declared by `src/lib.rs` but its body is not in the
source tree; the following definitions are modelled from the specification's
description of the graph capability, `shortest_path` (classic Dijkstra over a
priority frontier keyed by accumulated cost) and `bfs_all`. -/

lemma isPath_append_one {g : Graph} {a u : Nat} {q : List Edge} {e : Edge}
    (hq : IsPath g a q u) (he : e ∈ g.neighbors u) :
    IsPath g a (q ++ [e]) e.dest := by
  induction q generalizing a with
  | nil =>
    obtain rfl : a = u := hq
    exact ⟨he, rfl⟩
  | cons f fs ih =>
    obtain ⟨hf, hrest⟩ := hq
    exact ⟨hf, ih hrest⟩

lemma isPath_snoc {g : Graph} {a w : Nat} {q : List Edge} {e : Edge}
    (h : IsPath g a (q ++ [e]) w) :
    ∃ u, IsPath g a q u ∧ e ∈ g.neighbors u ∧ w = e.dest := by
  induction q generalizing a with
  | nil =>
    obtain ⟨he, hw⟩ := h
    exact ⟨a, rfl, he, hw.symm⟩
  | cons f fs ih =>
    obtain ⟨hf, hrest⟩ := h
    obtain ⟨u, h1, h2, h3⟩ := ih hrest
    exact ⟨u, ⟨hf, h1⟩, h2, h3⟩

lemma pathCost_append (p q : List Edge) :
    pathCost (p ++ q) = pathCost p + pathCost q := by
  simp [pathCost]

/-! ### Properties of the frontier minimum -/

lemma selectMin_mem : ∀ (l : List (Nat × Nat × List Edge)) (c),
    selectMin c l ∈ c :: l := by
  intro l
  induction l with
  | nil => intro c; simp [selectMin]
  | cons x xs ih =>
    intro c
    unfold selectMin
    by_cases hx : x.1 < c.1
    · rw [if_pos hx]
      have := ih x
      rcases List.mem_cons.mp this with h | h
      · rw [h]; simp
      · simp [h]
    · rw [if_neg hx]
      have := ih c
      rcases List.mem_cons.mp this with h | h
      · rw [h]; simp
      · simp [h]

lemma selectMin_le : ∀ (l : List (Nat × Nat × List Edge)) (c) (x),
    x ∈ c :: l → (selectMin c l).1 ≤ x.1 := by
  intro l
  induction l with
  | nil =>
    intro c x hx
    rcases List.mem_cons.mp hx with rfl | h
    · exact le_refl _
    · simp at h
  | cons y ys ih =>
    intro c x hx
    unfold selectMin
    by_cases hy : y.1 < c.1
    · rw [if_pos hy]
      rcases List.mem_cons.mp hx with rfl | h
      · calc (selectMin y ys).1 ≤ y.1 := ih y y (List.mem_cons_self y ys)
        _ ≤ x.1 := le_of_lt hy
      · exact ih y x h
    · rw [if_neg hy]
      rcases List.mem_cons.mp hx with rfl | h
      · exact ih x x (List.mem_cons_self x ys)
      · rcases List.mem_cons.mp h with rfl | h2
        · calc (selectMin c ys).1 ≤ c.1 := ih c c (List.mem_cons_self c ys)
          _ ≤ x.1 := le_of_not_lt hy
        · exact ih c x (List.mem_cons_of_mem c h2)

lemma cand_mem {visited : List (Nat × Nat)}
    {frontier : List (Nat × Nat × List Edge)} {x : Nat × Nat × List Edge} :
    x ∈ frontier.filter (fun x => visited.all (fun vd => vd.1 != x.2.1)) ↔
    x ∈ frontier ∧ x.2.1 ∉ visited.map Prod.fst := by
  rw [List.mem_filter]
  refine and_congr_right fun _ => ?_
  rw [List.all_eq_true]
  constructor
  · intro h hmem
    obtain ⟨vd, hvd, hfst⟩ := List.mem_map.mp hmem
    exact absurd hfst (by simpa using h vd hvd)
  · intro h vd hvd
    simp only [bne_iff_ne, ne_eq, decide_eq_true_eq]
    intro hfst
    exact h (List.mem_map.mpr ⟨vd, hvd, hfst⟩)

/-- The cut property: every path from `start` ends at a finalized node whose
recorded distance is below the path's cost, or passes a frontier entry at an
unfinalized node whose key is below the path's cost. -/
lemma dijkstra_cut {g : Graph} {start : Nat} {goalP : Nat → Bool}
    {visited : List (Nat × Nat)} {frontier : List (Nat × Nat × List Edge)}
    (hD : DState g start goalP visited frontier) :
    ∀ q w, IsPath g start q w →
      (∃ d, (w, d) ∈ visited ∧ d ≤ pathCost q) ∨
      (∃ x ∈ frontier, x.2.1 ∉ visited.map Prod.fst ∧ x.1 ≤ pathCost q) := by
  intro q
  induction q using List.reverseRecOn with
  | nil =>
    intro w hw
    obtain rfl : start = w := hw
    by_cases hv : start ∈ visited.map Prod.fst
    · obtain ⟨vd, hvd, hfst⟩ := List.mem_map.mp hv
      left
      refine ⟨vd.2, ?_, hD.vis_min vd hvd [] hfst.symm⟩
      rw [← hfst]
      exact hvd
    · right
      exact ⟨(0, start, []), hD.start_mem, by simpa using hv, by simp [pathCost]⟩
  | append_singleton q e ih =>
    intro w hw
    obtain ⟨u, hq, he, rfl⟩ := isPath_snoc hw
    have hcost : pathCost (q ++ [e]) = pathCost q + e.weight := by
      rw [pathCost_append]
      simp [pathCost]
    rcases ih u hq with ⟨d, hmem, hd⟩ | ⟨x, hx, hnv, hc⟩
    · by_cases hv : e.dest ∈ visited.map Prod.fst
      · obtain ⟨vd, hvd, hfst⟩ := List.mem_map.mp hv
        left
        refine ⟨vd.2, ?_, hD.vis_min vd hvd _ (by rw [hfst]; exact hw)⟩
        rw [← hfst]
        exact hvd
      · right
        obtain ⟨x, hx, hnode, hxcost⟩ := hD.vis_relaxed (u, d) hmem e he
        refine ⟨x, hx, by rw [hnode]; exact hv, ?_⟩
        rw [hcost]
        calc x.1 ≤ d + e.weight := hxcost
        _ ≤ pathCost q + e.weight := by omega
    · right
      refine ⟨x, hx, hnv, ?_⟩
      rw [hcost]
      omega

/-- One non-goal Dijkstra round preserves the loop invariant. -/
lemma dijkstra_step {g : Graph} {start : Nat} {goalP : Nat → Bool}
    {visited : List (Nat × Nat)} {frontier : List (Nat × Nat × List Edge)}
    (hg : WF g) (hD : DState g start goalP visited frontier)
    {c : Nat × Nat × List Edge} {cs : List (Nat × Nat × List Edge)}
    (hcand : frontier.filter (fun x => visited.all (fun vd => vd.1 != x.2.1))
      = c :: cs)
    (hng : goalP (selectMin c cs).2.1 = false) :
    DState g start goalP
      (((selectMin c cs).2.1, (selectMin c cs).1) :: visited)
      (frontier ++ (g.neighbors (selectMin c cs).2.1).map
        (fun e => ((selectMin c cs).1 + e.weight, e.dest,
          (selectMin c cs).2.2 ++ [e]))) := by
  have hm_cand : selectMin c cs ∈
      frontier.filter (fun x => visited.all (fun vd => vd.1 != x.2.1)) := by
    rw [hcand]
    exact selectMin_mem cs c
  obtain ⟨hm_fr, hm_nv⟩ := cand_mem.mp hm_cand
  have hm_lt : (selectMin c cs).2.1 < g.n := hD.fr_lt _ hm_fr
  have hm_path : IsPath g start (selectMin c cs).2.2 (selectMin c cs).2.1 :=
    hD.fr_path _ hm_fr
  have hm_cost : pathCost (selectMin c cs).2.2 = (selectMin c cs).1 :=
    hD.fr_cost _ hm_fr
  have hmin : ∀ x ∈ frontier, x.2.1 ∉ visited.map Prod.fst →
      (selectMin c cs).1 ≤ x.1 := by
    intro x hx hnv
    refine selectMin_le cs c x ?_
    rw [← hcand]
    exact cand_mem.mpr ⟨hx, hnv⟩
  refine ⟨?_, ?_, ?_, ?_, ?_, ?_, ?_, ?_, List.mem_append_left _ hD.start_mem⟩
  · intro x hx
    rcases List.mem_append.mp hx with hx | hx
    · exact hD.fr_path x hx
    · obtain ⟨e, he, rfl⟩ := List.mem_map.mp hx
      exact isPath_append_one hm_path he
  · intro x hx
    rcases List.mem_append.mp hx with hx | hx
    · exact hD.fr_cost x hx
    · obtain ⟨e, he, rfl⟩ := List.mem_map.mp hx
      rw [pathCost_append, hm_cost]
      simp [pathCost]
  · intro x hx
    rcases List.mem_append.mp hx with hx | hx
    · exact hD.fr_lt x hx
    · obtain ⟨e, he, rfl⟩ := List.mem_map.mp hx
      exact (hg _ hm_lt e he).2
  · intro vd hvd
    rcases List.mem_cons.mp hvd with rfl | hvd
    · exact hm_lt
    · exact hD.vis_lt vd hvd
  · rw [List.map_cons]
    exact List.Nodup.cons hm_nv hD.vis_nodup
  · intro vd hvd
    rcases List.mem_cons.mp hvd with rfl | hvd
    · exact hng
    · exact hD.vis_nogoal vd hvd
  · intro vd hvd
    rcases List.mem_cons.mp hvd with rfl | hvd
    · intro q hq
      rcases dijkstra_cut hD q _ hq with ⟨d, hdm, _⟩ | ⟨x, hx, hnv, hc⟩
      · exact absurd (List.mem_map.mpr ⟨_, hdm, rfl⟩) hm_nv
      · exact le_trans (hmin x hx hnv) hc
    · exact hD.vis_min vd hvd
  · intro vd hvd e he
    rcases List.mem_cons.mp hvd with rfl | hvd
    · refine ⟨((selectMin c cs).1 + e.weight, e.dest, (selectMin c cs).2.2 ++ [e]),
        List.mem_append_right _ (List.mem_map.mpr ⟨e, he, rfl⟩), rfl, le_refl _⟩
    · obtain ⟨x, hx, h1, h2⟩ := hD.vis_relaxed vd hvd e he
      exact ⟨x, List.mem_append_left _ hx, h1, h2⟩

/-- Main induction for the Dijkstra loop: a returned path reaches a goal node
at minimal cost over all goal-reaching paths, and a `none` return (with
sufficient fuel) means no reachable node satisfies the goal. -/
lemma dijkstraLoop_spec {g : Graph} {start : Nat} {goalP : Nat → Bool}
    (hg : WF g) :
    ∀ (fuel : Nat) (visited : List (Nat × Nat))
      (frontier : List (Nat × Nat × List Edge)),
      DState g start goalP visited frontier →
    (∀ p, dijkstraLoop g goalP fuel visited frontier = some p →
      ∃ w, IsPath g start p w ∧ goalP w = true ∧
        ∀ q w2, IsPath g start q w2 → goalP w2 = true →
          pathCost p ≤ pathCost q) ∧
    (g.n < fuel + visited.length →
      dijkstraLoop g goalP fuel visited frontier = none →
      ∀ q w, IsPath g start q w → goalP w = false) := by
  intro fuel
  induction fuel with
  | zero =>
    intro visited frontier hD
    refine ⟨fun p hp => by simp [dijkstraLoop] at hp, ?_⟩
    intro hcount _ q w _
    exfalso
    have hlen : visited.length ≤ g.n := by
      have h1 : (visited.map Prod.fst).length = visited.length :=
        List.length_map ..
      have h2 : (visited.map Prod.fst).toFinset.card
          = (visited.map Prod.fst).length :=
        List.toFinset_card_of_nodup hD.vis_nodup
      have h3 : (visited.map Prod.fst).toFinset ⊆ Finset.range g.n := by
        intro a ha
        rw [List.mem_toFinset] at ha
        obtain ⟨vd, hvd, rfl⟩ := List.mem_map.mp ha
        rw [Finset.mem_range]
        exact hD.vis_lt vd hvd
      have h4 := Finset.card_le_card h3
      rw [h2, h1, Finset.card_range] at h4
      exact h4
    omega
  | succ fuel ih =>
    intro visited frontier hD
    cases hcand : frontier.filter (fun x => visited.all (fun vd => vd.1 != x.2.1)) with
    | nil =>
      have heval : dijkstraLoop g goalP (fuel + 1) visited frontier = none := by
        simp only [dijkstraLoop, hcand]
      refine ⟨fun p hp => by rw [heval] at hp; simp at hp, ?_⟩
      intro _ _ q w hq
      by_contra hgw
      rcases dijkstra_cut hD q w hq with ⟨d, hmem, _⟩ | ⟨x, hx, hnv, _⟩
      · exact hgw (hD.vis_nogoal (w, d) hmem)
      · have hxc : x ∈ ([] : List (Nat × Nat × List Edge)) := by
          rw [← hcand]
          exact cand_mem.mpr ⟨hx, hnv⟩
        simp at hxc
    | cons c cs =>
      have hm_cand : selectMin c cs ∈
          frontier.filter (fun x => visited.all (fun vd => vd.1 != x.2.1)) := by
        rw [hcand]
        exact selectMin_mem cs c
      obtain ⟨hm_fr, hm_nv⟩ := cand_mem.mp hm_cand
      have hmin : ∀ x ∈ frontier, x.2.1 ∉ visited.map Prod.fst →
          (selectMin c cs).1 ≤ x.1 := by
        intro x hx hnv
        refine selectMin_le cs c x ?_
        rw [← hcand]
        exact cand_mem.mpr ⟨hx, hnv⟩
      by_cases hgoal : goalP (selectMin c cs).2.1 = true
      · have heval : dijkstraLoop g goalP (fuel + 1) visited frontier
            = some (selectMin c cs).2.2 := by
          simp only [dijkstraLoop, hcand]
          rw [if_pos hgoal]
        refine ⟨?_, ?_⟩
        · intro p hp
          rw [heval] at hp
          obtain rfl : (selectMin c cs).2.2 = p := Option.some.inj hp
          refine ⟨(selectMin c cs).2.1, hD.fr_path _ hm_fr, hgoal, ?_⟩
          intro q w2 hq hw2
          rcases dijkstra_cut hD q w2 hq with ⟨d, hmem, _⟩ | ⟨x, hx, hnv, hc⟩
          · rw [hD.vis_nogoal (w2, d) hmem] at hw2
            simp at hw2
          · rw [hD.fr_cost _ hm_fr]
            exact le_trans (hmin x hx hnv) hc
        · intro _ hnone
          rw [heval] at hnone
          simp at hnone
      · have hng : goalP (selectMin c cs).2.1 = false :=
          Bool.not_eq_true _ |>.mp hgoal
        have heval : dijkstraLoop g goalP (fuel + 1) visited frontier
            = dijkstraLoop g goalP fuel
              (((selectMin c cs).2.1, (selectMin c cs).1) :: visited)
              (frontier ++ (g.neighbors (selectMin c cs).2.1).map
                (fun e => ((selectMin c cs).1 + e.weight, e.dest,
                  (selectMin c cs).2.2 ++ [e]))) := by
          simp only [dijkstraLoop, hcand]
          rw [if_neg hgoal]
        have hD2 := dijkstra_step hg hD hcand hng
        obtain ⟨ih1, ih2⟩ := ih _ _ hD2
        refine ⟨?_, ?_⟩
        · intro p hp
          rw [heval] at hp
          exact ih1 p hp
        · intro hcount hnone
          rw [heval] at hnone
          refine ih2 ?_ hnone
          rw [List.length_cons]
          omega

/-- C1: modelled from the spec — `shortest_path` over non-negative weights
returns a goal-reaching path of cost no greater than every path from `start`
to any goal-satisfying node, and returns `none` exactly when no reachable
node satisfies the goal predicate. -/
theorem claim_C1 (g : Graph) (hg : WF g) (start : Nat) (hs : start < g.n)
    (goalP : Nat → Bool) :
    (∀ p, shortest_path g start goalP = some p →
      ∃ w, IsPath g start p w ∧ goalP w = true ∧
        ∀ q w2, IsPath g start q w2 → goalP w2 = true →
          pathCost p ≤ pathCost q) ∧
    (shortest_path g start goalP = none ↔
      ¬∃ w q, IsPath g start q w ∧ goalP w = true) := by
  have hD : DState g start goalP [] [(0, start, [])] := by
    refine ⟨?_, ?_, ?_, ?_, ?_, ?_, ?_, ?_, ?_⟩
    · intro x hx
      rw [List.mem_singleton] at hx
      rw [hx]
      exact rfl
    · intro x hx
      rw [List.mem_singleton] at hx
      rw [hx]
      rfl
    · intro x hx
      rw [List.mem_singleton] at hx
      rw [hx]
      exact hs
    · intro vd hvd; simp at hvd
    · simp
    · intro vd hvd; simp at hvd
    · intro vd hvd; simp at hvd
    · intro vd hvd; simp at hvd
    · exact List.mem_singleton.mpr rfl
  obtain ⟨h1, h2⟩ := dijkstraLoop_spec hg (g.n + 1) [] [(0, start, [])] hD
  refine ⟨h1, ?_, ?_⟩
  · intro hnone
    rintro ⟨w, q, hq, hgw⟩
    have := h2 (by simp) hnone q w hq
    rw [this] at hgw
    simp at hgw
  · intro hnex
    cases heval : shortest_path g start goalP with
    | none => rfl
    | some p =>
      obtain ⟨w, hw, hgw, _⟩ := h1 p heval
      exact absurd ⟨w, p, hw, hgw⟩ hnex

theorem claim_C1_witness :
    (∀ p, shortest_path gEx 0 (fun v => v == 2) = some p →
      ∃ w, IsPath gEx 0 p w ∧ (w == 2) = true ∧
        ∀ q w2, IsPath gEx 0 q w2 → (w2 == 2) = true →
          pathCost p ≤ pathCost q) ∧
    (shortest_path gEx 0 (fun v => v == 2) = none ↔
      ¬∃ w q, IsPath gEx 0 q w ∧ (w == 2) = true) :=
  claim_C1 gEx (by unfold WF; decide) 0 (by decide) (fun v => v == 2)

lemma nodup_keys_le {α : Type} {n : Nat} {l : List (Nat × α)}
    (hn : (l.map Prod.fst).Nodup) (hlt : ∀ kv ∈ l, kv.1 < n) :
    l.length ≤ n := by
  have h1 : (l.map Prod.fst).length = l.length := List.length_map ..
  have h2 : (l.map Prod.fst).toFinset.card = (l.map Prod.fst).length :=
    List.toFinset_card_of_nodup hn
  have h3 : (l.map Prod.fst).toFinset ⊆ Finset.range n := by
    intro a ha
    rw [List.mem_toFinset] at ha
    obtain ⟨kv, hkv, rfl⟩ := List.mem_map.mp ha
    rw [Finset.mem_range]
    exact hlt kv hkv
  have h4 := Finset.card_le_card h3
  rw [h2, h1, Finset.card_range] at h4
  exact h4

/-- Specification of the BFS expansion step: it appends the same block of
fresh entries to the mapping and the queue, keeps keys duplicate-free, adds
only in-range nodes carrying real paths, and afterwards every walked edge's
destination is keyed. -/
lemma bfsStep_spec {g : Graph} {start v : Nat} {p : List Edge} (hg : WF g)
    (hv : v < g.n) (hp : IsPath g start p v) :
    ∀ (edges : List Edge), (∀ e ∈ edges, e ∈ g.neighbors v) →
    ∀ (mp queue : List (Nat × List Edge)), (mp.map Prod.fst).Nodup →
    ∃ adds, bfsStep p edges mp queue = (mp ++ adds, queue ++ adds) ∧
      ((mp ++ adds).map Prod.fst).Nodup ∧
      (∀ kv ∈ adds, kv.1 < g.n ∧ IsPath g start kv.2 kv.1) ∧
      (∀ e ∈ edges, e.dest ∈ (mp ++ adds).map Prod.fst) := by
  intro edges
  induction edges with
  | nil =>
    intro _ mp queue hn
    refine ⟨[], by simp [bfsStep], by simpa using hn, by simp, by simp⟩
  | cons e es ih =>
    intro hsub mp queue hn
    by_cases hmem : e.dest ∈ mp.map Prod.fst
    · obtain ⟨adds, heq, h1, h2, h3⟩ :=
        ih (fun f hf => hsub f (List.mem_cons_of_mem e hf)) mp queue hn
      refine ⟨adds, by simpa [bfsStep, hmem] using heq, h1, h2, ?_⟩
      intro f hf
      rcases List.mem_cons.mp hf with rfl | hf
      · rw [List.map_append]
        exact List.mem_append_left _ hmem
      · exact h3 f hf
    · have hn2 : ((mp ++ [(e.dest, p ++ [e])]).map Prod.fst).Nodup := by
        rw [List.map_append]
        simp only [List.map_cons, List.map_nil]
        rw [List.nodup_append]
        exact ⟨hn, List.nodup_singleton _, by simpa using hmem⟩
      obtain ⟨adds, heq, h1, h2, h3⟩ :=
        ih (fun f hf => hsub f (List.mem_cons_of_mem e hf))
          (mp ++ [(e.dest, p ++ [e])]) (queue ++ [(e.dest, p ++ [e])]) hn2
      refine ⟨(e.dest, p ++ [e]) :: adds, ?_, ?_, ?_, ?_⟩
      · rw [bfsStep, if_neg hmem, heq]
        simp
      · simpa using h1
      · intro kv hkv
        rcases List.mem_cons.mp hkv with rfl | hkv
        · exact ⟨(hg v hv e (hsub e (List.mem_cons_self e es))).2,
            isPath_append_one hp (hsub e (List.mem_cons_self e es))⟩
        · exact h2 kv hkv
      · intro f hf
        rcases List.mem_cons.mp hf with rfl | hf
        · have : f.dest ∈ ((mp ++ [(f.dest, p ++ [f])]).map Prod.fst) := by
            rw [List.map_append]
            exact List.mem_append_right _ (by simp)
          have h4 : ((mp ++ [(f.dest, p ++ [f])]) ++ adds).map Prod.fst
              = (mp ++ ((f.dest, p ++ [f]) :: adds)).map Prod.fst := by
            rw [List.append_assoc]
            rfl
          rw [← h4, List.map_append]
          exact List.mem_append_left _ this
        · have h4 : ((mp ++ [(e.dest, p ++ [e])]) ++ adds).map Prod.fst
              = (mp ++ ((e.dest, p ++ [e]) :: adds)).map Prod.fst := by
            rw [List.append_assoc]
            rfl
          rw [← h4]
          exact h3 f hf

/-- Main induction for the BFS loop: with sufficient fuel it returns a
mapping of duplicate-free, in-range keys carrying real paths, containing
`start`, and closed under outbound edges. -/
lemma bfsLoop_spec {g : Graph} {start : Nat} (hg : WF g) :
    ∀ (fuel : Nat) (mp queue : List (Nat × List Edge)),
      BState g start mp queue →
      queue.length + (g.n - mp.length) < fuel →
      ∃ mp2, bfsLoop g fuel mp queue = some mp2 ∧
        (∀ kv ∈ mp2, kv.1 < g.n ∧ IsPath g start kv.2 kv.1) ∧
        (mp2.map Prod.fst).Nodup ∧
        start ∈ mp2.map Prod.fst ∧
        (∀ kv ∈ mp2, ∀ e ∈ g.neighbors kv.1, e.dest ∈ mp2.map Prod.fst) := by
  intro fuel
  induction fuel with
  | zero =>
    intro mp queue _ hcount
    omega
  | succ fuel ih =>
    intro mp queue hB hcount
    cases hq : queue with
    | nil =>
      refine ⟨mp, by simp [bfsLoop], fun kv hkv => ⟨hB.keys_lt kv hkv,
        hB.keys_path kv hkv⟩, hB.keys_nodup, hB.start_key, ?_⟩
      intro kv hkv e he
      rcases hB.closed kv hkv with hleft | hright
      · rw [hq] at hleft
        simp at hleft
      · exact hright e he
    | cons vp rest =>
      obtain ⟨v, p⟩ := vp
      have hvq : ((v, p) : Nat × List Edge) ∈ queue := by
        rw [hq]
        exact List.mem_cons_self _ _
      have hv : v < g.n := hB.queue_lt _ hvq
      have hp : IsPath g start p v := hB.queue_path _ hvq
      obtain ⟨adds, heq, hnodup2, hadds, hdests⟩ :=
        bfsStep_spec hg hv hp (g.neighbors v) (fun _ hf => hf) mp rest
          hB.keys_nodup
      have hmple : (mp ++ adds).length ≤ g.n := by
        refine nodup_keys_le hnodup2 ?_
        intro kv hkv
        rcases List.mem_append.mp hkv with hkv | hkv
        · exact hB.keys_lt kv hkv
        · exact (hadds kv hkv).1
      have hB2 : BState g start (mp ++ adds) (rest ++ adds) := by
        refine ⟨hnodup2, ?_, ?_, ?_, ?_, ?_, ?_, ?_⟩
        · intro kv hkv
          rcases List.mem_append.mp hkv with hkv | hkv
          · exact hB.keys_lt kv hkv
          · exact (hadds kv hkv).1
        · intro kv hkv
          rcases List.mem_append.mp hkv with hkv | hkv
          · exact hB.keys_path kv hkv
          · exact (hadds kv hkv).2
        · intro kv hkv
          rw [List.map_append]
          rcases List.mem_append.mp hkv with hkv | hkv
          · exact List.mem_append_left _
              (hB.queue_sub kv (by rw [hq]; exact List.mem_cons_of_mem _ hkv))
          · exact List.mem_append_right _ (List.mem_map.mpr ⟨kv, hkv, rfl⟩)
        · intro kv hkv
          rcases List.mem_append.mp hkv with hkv | hkv
          · exact hB.queue_lt kv (by rw [hq]; exact List.mem_cons_of_mem _ hkv)
          · exact (hadds kv hkv).1
        · intro kv hkv
          rcases List.mem_append.mp hkv with hkv | hkv
          · exact hB.queue_path kv (by rw [hq]; exact List.mem_cons_of_mem _ hkv)
          · exact (hadds kv hkv).2
        · intro kv hkv
          rcases List.mem_append.mp hkv with hkv | hkv
          · rcases hB.closed kv hkv with hleft | hright
            · rw [hq] at hleft
              simp only [List.map_cons] at hleft
              rcases List.mem_cons.mp hleft with hkv1 | hkv1
              · right
                intro e he
                rw [hkv1] at he
                exact hdests e he
              · left
                rw [List.map_append]
                exact List.mem_append_left _ hkv1
            · right
              intro e he
              rw [List.map_append]
              exact List.mem_append_left _ (hright e he)
          · left
            rw [List.map_append]
            exact List.mem_append_right _ (List.mem_map.mpr ⟨kv, hkv, rfl⟩)
        · rw [List.map_append]
          exact List.mem_append_left _ hB.start_key
      have hcount2 : (rest ++ adds).length + (g.n - (mp ++ adds).length) < fuel := by
        rw [List.length_append] at hmple ⊢
        rw [List.length_append]
        rw [hq] at hcount
        rw [List.length_cons] at hcount
        omega
      obtain ⟨mp2, heval, h1, h2, h3, h4⟩ := ih (mp ++ adds) (rest ++ adds) hB2 hcount2
      refine ⟨mp2, ?_, h1, h2, h3, h4⟩
      simp only [bfsLoop, heq]
      exact heval

lemma keys_closed_reach {g : Graph} {mp2 : List (Nat × List Edge)}
    (hclosed : ∀ kv ∈ mp2, ∀ e ∈ g.neighbors kv.1, e.dest ∈ mp2.map Prod.fst) :
    ∀ (q : List Edge) (u w : Nat), u ∈ mp2.map Prod.fst → IsPath g u q w →
      w ∈ mp2.map Prod.fst := by
  intro q
  induction q with
  | nil =>
    intro u w hu hp
    obtain rfl : u = w := hp
    exact hu
  | cons e es ih =>
    intro u w hu hp
    obtain ⟨he, hrest⟩ := hp
    obtain ⟨kv, hkv, hfst⟩ := List.mem_map.mp hu
    exact ih e.dest w (hclosed kv hkv e (by rw [hfst]; exact he)) hrest

/-- C5: modelled from the spec — `bfs_all(start)` returns a mapping whose key
set is exactly the set of nodes reachable from `start` by a finite path
(keys are duplicate-free), and every value is a path, in traversal order,
from `start` to its key. -/
theorem claim_C5 (g : Graph) (hg : WF g) (start : Nat) (hs : start < g.n) :
    ∃ mp, bfs_all g start = some mp ∧
      (∀ w, w ∈ mp.map Prod.fst ↔ ∃ q, IsPath g start q w) ∧
      (∀ kv ∈ mp, IsPath g start kv.2 kv.1) ∧
      (mp.map Prod.fst).Nodup := by
  have hB : BState g start [(start, [])] [(start, [])] := by
    refine ⟨by simp, ?_, ?_, by simp, ?_, ?_, ?_, by simp⟩
    · intro kv hkv
      rw [List.mem_singleton] at hkv
      rw [hkv]
      exact hs
    · intro kv hkv
      rw [List.mem_singleton] at hkv
      rw [hkv]
      exact rfl
    · intro kv hkv
      rw [List.mem_singleton] at hkv
      rw [hkv]
      exact hs
    · intro kv hkv
      rw [List.mem_singleton] at hkv
      rw [hkv]
      exact rfl
    · intro kv hkv
      left
      rw [List.mem_singleton] at hkv
      rw [hkv]
      simp
  obtain ⟨mp2, heval, h1, h2, h3, h4⟩ :=
    bfsLoop_spec hg (g.n + 1) [(start, [])] [(start, [])] hB (by simp; omega)
  refine ⟨mp2, heval, ?_, fun kv hkv => (h1 kv hkv).2, h2⟩
  intro w
  constructor
  · intro hw
    obtain ⟨kv, hkv, rfl⟩ := List.mem_map.mp hw
    exact ⟨kv.2, (h1 kv hkv).2⟩
  · rintro ⟨q, hq⟩
    exact keys_closed_reach h4 q start w h3 hq

theorem claim_C5_witness :
    ∃ mp, bfs_all gEx 0 = some mp ∧
      (∀ w, w ∈ mp.map Prod.fst ↔ ∃ q, IsPath gEx 0 q w) ∧
      (∀ kv ∈ mp, IsPath gEx 0 kv.2 kv.1) ∧
      (mp.map Prod.fst).Nodup :=
  claim_C5 gEx (by unfold WF; decide) 0 (by decide)

end Advent2023
